import Mathlib

/-!
# go-raml: path and name utilities, namespace resolution

A shallow embedding of the string, tree and file helpers of the code generator
(`codegen/utils.go`, `codegen/method_python.go`, `codegen/libraries_go.go`)
and of the library loading, library lookup and security-scheme lookup of the
document model (`raml/apidefinition.go`).

Go strings are modelled as lists of characters.  Every pattern the source
hands to `strings.Replace`, `strings.Split`, `strings.Index` or
`strings.HasPrefix` is ASCII, so working on characters instead of UTF-8 bytes
does not change where a pattern occurs.
-/

namespace GoRaml

/-- Go `string`, as the list of its characters. -/
abbrev Str := List Char

/-! ## Standard-library helpers used by the source -/

/-- Go `strings.Replace(s, old, new, -1)` for a one-character `old`: every
occurrence of `old` is replaced by `new`, other characters are kept. -/
def stringsReplace (s : Str) (old : Char) (new : Str) : Str :=
  match s with
  | [] => []
  | c :: cs => (if c = old then new else [c]) ++ stringsReplace cs old new

/-- Go `strings.HasSuffix(s, suffix)`. -/
def hasSuffix (s suffix : Str) : Bool :=
  s.drop (s.length - suffix.length) == suffix

/-- Go `strings.HasPrefix(s, prefix)`. -/
def hasPrefix (s pre : Str) : Bool :=
  s.take pre.length == pre

/-- The class `\w` of Go regular expressions: `[0-9A-Za-z_]`. -/
def isWordChar (c : Char) : Bool :=
  c.isAlphanum || c == '_'

/-- The class `\s` of Go regular expressions: `[\t\n\f\r ]`. -/
def isSpaceChar (c : Char) : Bool :=
  c == '\t' || c == '\n' || c == '\x0c' || c == '\r' || c == ' '

/-- The bracket expression `[\w\s]` of the pattern `regex`. -/
def isParamChar (c : Char) : Bool :=
  isWordChar c || isSpaceChar c

/-- Scanner for `regex.FindAllString(s, -1)` with
`regex = ({{1}[\w\s]+}{1})`, that is an opening brace, one or more characters
of `[\w\s]`, a closing brace.  The first argument is `none` outside a candidate match and
`some acc` after an opening brace followed by the characters `acc` (most
recent first), all of them in `[\w\s]`.  A candidate that fails at a
character restarts at that character, which is the only place the next
leftmost match can begin: the characters in between are in `[\w\s]` and so are
not an opening brace. -/
def findAllFrom : Option Str → Str → List Str
  | _, [] => []
  | none, c :: cs =>
      if c = '{' then findAllFrom (some []) cs else findAllFrom none cs
  | some acc, c :: cs =>
      if isParamChar c then findAllFrom (some (c :: acc)) cs
      else if c = '}' ∧ acc ≠ [] then
        ('{' :: (acc.reverse ++ ['}'])) :: findAllFrom none cs
      else if c = '{' then findAllFrom (some []) cs
      else findAllFrom none cs

/-- Go `regex.FindAllString(s, -1)`: all leftmost non-overlapping matches. -/
def regexFindAllString (s : Str) : List Str :=
  findAllFrom none s

/-! ## The resource tree (`raml.Resource`) -/

/-- A `raml.Resource`, reduced to the two fields the helpers read: its URI
segment and its parent reference.  `root` is a resource whose `Parent` is
`nil`. -/
inductive Resource where
  | root (URI : Str) : Resource
  | child (URI : Str) (Parent : Resource) : Resource
  deriving DecidableEq, Repr

/-- Field `URI`. -/
def Resource.URI : Resource → Str
  | .root u => u
  | .child u _ => u

/-- Field `Parent`; `none` is the `nil` pointer. -/
def Resource.Parent : Resource → Option Resource
  | .root _ => none
  | .child _ p => some p

/-- The URI segments on the parent chain, root first, the resource last. -/
def Resource.path : Resource → List Str
  | .root u => [u]
  | .child u p => p.path ++ [u]

/-! ## `codegen/utils.go` -/

/-- Source `doNormalizeURI`: slashes become spaces, braces are removed. -/
def doNormalizeURI (URI : Str) : Str :=
  let s := stringsReplace URI '/' [' ']
  let s := stringsReplace s '{' []
  stringsReplace s '}' []

/-- Source `normalizeURI`: removes slashes, braces and spaces. -/
def normalizeURI (URI : Str) : Str :=
  stringsReplace (doNormalizeURI URI) ' ' []

/-- The loop of `_getResourceParams` over the matches of one URI: each match
`v` is appended as `v[1:len(v)-1]`. -/
def appendMatches (params : List Str) (matches_ : List Str) : List Str :=
  matches_.foldl (fun ps v => ps ++ [(v.take (v.length - 1)).drop 1]) params

/-- Source `_getResourceParams` on a non-nil resource. -/
def getResourceParamsRec : Resource → List Str → List Str
  | .root u, params => appendMatches params (regexFindAllString u)
  | .child u p, params =>
      getResourceParamsRec p (appendMatches params (regexFindAllString u))

/-- Source `_getResourceParams`: the recursive function of `getResourceParams`. -/
def _getResourceParams (r : Option Resource) (params : List Str) : List Str :=
  match r with
  | none => params
  | some r => getResourceParamsRec r params

/-- Source `getResourceParams`: all params of a resource. -/
def getResourceParams (r : Option Resource) : List Str :=
  _getResourceParams r []

/-- Source `paramizingURI`: create the parameterized URI expression. -/
def paramizingURI (URI : Str) : Str :=
  let uri := ['"'] ++ URI ++ ['"']
  -- replace { with "+
  let uri := stringsReplace uri '{' ['"', '+']
  -- if ended with }/" or }", remove trailing "
  let uri := if hasSuffix uri ['}', '/', '"'] || hasSuffix uri ['}', '"']
    then uri.take (uri.length - 1) else uri
  -- replace } with +"
  let uri := stringsReplace uri '}' ['+', '"']
  -- clean trailing +"
  if hasSuffix uri ['+', '"'] then uri.take (uri.length - 2) else uri

/-! ## More standard-library helpers -/

/-- Go `strings.ToLower`, on the ASCII letters. -/
def stringsToLower (s : Str) : Str :=
  s.map Char.toLower

/-- Go `strings.ToUpper`, on the ASCII letters. -/
def stringsToUpper (s : Str) : Str :=
  s.map Char.toUpper

/-- Go `strings.Join(elems, sep)`. -/
def stringsJoin (elems : List Str) (sep : Str) : Str :=
  sep.intercalate elems

/-- Go `strings.Split(s, sep)` for a one-character `sep`: the pieces of `s`
between the occurrences of `sep`; there is always at least one piece. -/
def stringsSplit (s : Str) (sep : Char) : List Str :=
  match s with
  | [] => [[]]
  | c :: cs =>
      if c = sep then [] :: stringsSplit cs sep
      else
        match stringsSplit cs sep with
        | [] => [[c]]
        | piece :: pieces => (c :: piece) :: pieces

/-- Go `strings.Index(s, sep)` for a one-character `sep`: the position of the
first occurrence, `-1` when there is none. -/
def stringsIndex (s : Str) (sep : Char) : Int :=
  if sep ∈ s then (s.indexOf sep : Int) else -1

/-- Go `strings.TrimSuffix(s, suffix)`. -/
def stringsTrimSuffix (s suffix : Str) : Str :=
  if hasSuffix s suffix then s.take (s.length - suffix.length) else s

/-- The loop of `filepath.Ext`, walking the path from its last character
backwards; `seen` holds the characters already passed, in path order. -/
def extFromEnd : Str → Str → Str
  | [], _ => []
  | c :: cs, seen =>
      if c = '/' then []
      else if c = '.' then '.' :: seen
      else extFromEnd cs (c :: seen)

/-- Go `filepath.Ext(path)`: the suffix beginning at the final dot of the final
element of `path`, empty when that element has no dot. -/
def filepathExt (path : Str) : Str :=
  extFromEnd path.reverse []

/-- The element rules of `filepath.Clean`: empty and `.` elements are
dropped, `..` removes the element before it, is dropped at the top of a
rooted path and is kept at the top of a relative one.  `kept` holds the
elements kept so far, last one first. -/
def cleanElems (rooted : Bool) : List Str → List Str → List Str
  | [], kept => kept.reverse
  | e :: es, kept =>
      if e = [] ∨ e = ['.'] then cleanElems rooted es kept
      else if e = ['.', '.'] then
        match kept with
        | [] => if rooted then cleanElems rooted es [] else cleanElems rooted es [e]
        | k :: ks =>
            if k = ['.', '.'] then cleanElems rooted es (e :: k :: ks)
            else cleanElems rooted es ks
      else cleanElems rooted es (e :: kept)

/-- Go `filepath.Clean(path)` with `/` as the separator. -/
def filepathClean (path : Str) : Str :=
  if path = [] then ['.']
  else
    let rooted := hasPrefix path ['/']
    let out := stringsJoin (cleanElems rooted (stringsSplit path '/') []) ['/']
    if rooted then '/' :: out
    else if out = [] then ['.'] else out

/-- Go `filepath.Join(elem...)`: leading empty elements are ignored, the rest is
joined with the separator and cleaned; the empty string when every element is
empty. -/
def filepathJoin : List Str → Str
  | [] => []
  | e :: es => if e = [] then filepathJoin es else filepathClean (stringsJoin (e :: es) ['/'])

/-! ## `codegen/method_python.go` -/

/-- Source `_snakeCaseResourceURI` on a non-nil resource with segment `URI`, where
`hasParent` says whether `r.Parent != nil` and `next` continues with the
parent.  `none` is the run-time panic of `uri[:1]` on an empty `uri`. -/
def snakeCaseStep (URI : Str) (hasParent : Bool) (completeURI : Str)
    (next : Str → Option Str) : Option Str :=
  if URI.length > 0 then
    let uri := normalizeURI URI
    -- not root resource, need to add "_"
    let snake : Str := if hasParent then ['_'] else []
    match uri with
    | [] => none
    | u :: _ =>
        let snake :=
          if hasPrefix URI ['/', '{'] then snake ++ ['b', 'y'] ++ stringsToUpper [u]
          else snake ++ stringsToLower [u]
        -- append with the rest of uri
        let snake := if uri.length > 1 then snake ++ uri.drop 1 else snake
        next (snake ++ completeURI)
  else next ([] ++ completeURI)

/-- Source `_snakeCaseResourceURI` on a non-nil resource. -/
def snakeCaseRec : Resource → Str → Option Str
  | .root u, completeURI => snakeCaseStep u false completeURI some
  | .child u p, completeURI => snakeCaseStep u true completeURI (snakeCaseRec p)

/-- Source `_snakeCaseResourceURI`. -/
def _snakeCaseResourceURI (r : Option Resource) (completeURI : Str) : Option Str :=
  match r with
  | none => some completeURI
  | some r => snakeCaseRec r completeURI

/-- Source `snakeCaseResourceURI`: create snake case function name from a resource
URI. -/
def snakeCaseResourceURI (r : Option Resource) : Option Str :=
  _snakeCaseResourceURI r []

/-- Modelled from the spec: `raml.DefinitionChoice`, whose declaration is not
part of the sources at hand: a scheme name plus optional instantiation
parameters. -/
structure DefinitionChoice where
  Name : Str
  Parameters : List (Str × Str) := []
  deriving DecidableEq, Repr

/-- Modelled from the spec: the struct `method` embedded by the python
methods, whose declaration is not part of the sources at hand; these are the
fields and accessors (`Verb()`, `Resource()`) that the two `setup` functions
read and write. -/
structure method where
  DisplayName : Str := []
  Verb : Str := []
  Endpoint : Str := []
  MethodName : Str := []
  Params : Str := []
  SecuredBy : List DefinitionChoice := []
  Resource : Option Resource := none
  deriving DecidableEq, Repr

/-- The method-name branch shared verbatim by both `setup` functions. -/
def setupMethodName (DisplayName Verb : Str) (r : Option Resource) : Option Str :=
  if DisplayName.length > 0 then
    some (stringsReplace DisplayName ' ' [])
  else
    (snakeCaseResourceURI r).map (fun s => s ++ ['_'] ++ stringsToLower Verb)

/-- Python server method. -/
structure pythonServerMethod (M : Type) where
  base : method
  MiddlewaresArr : List M := []

/-- The security-middleware loop of `pythonServerMethod.setup`: entries whose
scheme does not validate are skipped, the first construction error stops the
loop and is returned next to the middlewares appended so far. -/
def setupMiddlewares {M : Type} (validateSecurityScheme : Str → Bool)
    (newPythonOauth2Middleware : DefinitionChoice → Except Str M) :
    List DefinitionChoice → List M → List M × Option Str
  | [], arr => (arr, none)
  | v :: vs, arr =>
      if !validateSecurityScheme v.Name then
        setupMiddlewares validateSecurityScheme newPythonOauth2Middleware vs arr
      else
        match newPythonOauth2Middleware v with
        | .error err => (arr, some err)
        | .ok m =>
            setupMiddlewares validateSecurityScheme newPythonOauth2Middleware vs (arr ++ [m])

/-- Source `pythonServerMethod.setup`: sets all needed variables.  The two helpers
that are not part of the sources at hand are parameters:
`validateSecurityScheme` (already applied to the API definition) and
`newPythonOauth2Middleware`.  The result is `none` when the call panics,
otherwise the updated method and the returned error (`none` is `nil`). -/
def pythonServerMethod.setup {M : Type} (validateSecurityScheme : Str → Bool)
    (newPythonOauth2Middleware : DefinitionChoice → Except Str M)
    (pm : pythonServerMethod M) (r : Option Resource) :
    Option (pythonServerMethod M × Option Str) :=
  match setupMethodName pm.base.DisplayName pm.base.Verb r with
  | none => none
  | some name =>
      let params := stringsJoin (getResourceParams r) [',', ' ']
      let endpoint := stringsReplace pm.base.Endpoint '{' ['<']
      let endpoint := stringsReplace endpoint '}' ['>']
      let b : method :=
        { pm.base with MethodName := name, Params := params, Endpoint := endpoint }
      let res := setupMiddlewares validateSecurityScheme newPythonOauth2Middleware
        pm.base.SecuredBy pm.MiddlewaresArr
      some ({ base := b, MiddlewaresArr := res.1 }, res.2)

/-- A python client lib method. -/
structure pythonClientMethod where
  base : method
  PRArgs : Str := []
  deriving DecidableEq, Repr

/-- Source `pythonClientMethod.setup`; `none` when the call panics. -/
def pythonClientMethod.setup (pcm : pythonClientMethod) : Option pythonClientMethod :=
  let withBody : Bool :=
    pcm.base.Verb == "PUT".toList || pcm.base.Verb == "POST".toList
      || pcm.base.Verb == "PATCH".toList
  -- for method with request body, we add the data argument
  let params : List Str :=
    if withBody then ["self".toList, "data".toList] else ["self".toList]
  let prArgs : Str := if withBody then ", data".toList else []
  let params := params ++ getResourceParams pcm.base.Resource
  let paramsStr :=
    stringsJoin (params ++ ["headers=None, query_params=None".toList]) [',', ' ']
  match setupMethodName pcm.base.DisplayName pcm.base.Verb pcm.base.Resource with
  | none => none
  | some name =>
      some { base := { pcm.base with Params := paramsStr, MethodName := name },
             PRArgs := prArgs }

/-! ## `raml/apidefinition.go` -/

/-- A Go `map[string]V`, as the list of its entries; a key is looked up as the
first entry that carries it. -/
abbrev GoMap (V : Type) := List (Str × V)

/-- The comma-ok lookup `v, ok := m[key]`; `none` is `ok == false`. -/
def GoMap.get {V : Type} (m : GoMap V) (key : Str) : Option V :=
  m.lookup key

/-- Modelled from the spec: `raml.SecurityScheme`, whose declaration is not
part of the sources at hand: a named authentication/authorization scheme
description.  The zero value has every field empty. -/
structure SecurityScheme where
  Kind : Str := []
  Description : Str := []
  deriving DecidableEq, Repr

/-- A `raml.Library`, reduced to the fields the lookups read: the file it was
loaded from, the libraries it imports (`Uses`, indexed by alias with the
comma-ok form in `FindLibFile`, so the map from alias to file path), its
security schemes (indexed by name in `GetSecurityScheme`) and the libraries
loaded for its own imports. -/
inductive Library where
  | mk (Filename : Str) (Uses : GoMap Str) (SecuritySchemes : GoMap SecurityScheme)
      (Libraries : List (Str × Library)) : Library

/-- The library with every field empty. -/
instance Library.instInhabited : Inhabited Library :=
  ⟨Library.mk [] [] [] []⟩

/-- Field `Filename`. -/
def Library.Filename : Library → Str
  | .mk f _ _ _ => f

/-- Field `Uses`. -/
def Library.Uses : Library → GoMap Str
  | .mk _ u _ _ => u

/-- Field `SecuritySchemes`. -/
def Library.SecuritySchemes : Library → GoMap SecurityScheme
  | .mk _ _ s _ => s

/-- Field `Libraries`. -/
def Library.Libraries : Library → List (Str × Library)
  | .mk _ _ _ l => l

/-- A `raml.APIDefinition`, reduced to the fields the lookups read: `Uses`
(alias to library file path), the loaded `Libraries`, listed in the order
in which a `range` over the map visits them, the declared `SecuritySchemes`
and the `Filename` set by `PostProcess`. -/
structure APIDefinition where
  Uses : GoMap Str := []
  Libraries : GoMap Library := []
  SecuritySchemes : GoMap SecurityScheme := []
  Filename : Str := []

/-- The loop of `FindLibFile` over the included libraries. -/
def findInLibraries (name : Str) : List (Str × Library) → Str
  | [] => []
  | (_, lib) :: libs =>
      match lib.Uses.get name with
      | some filename => filename
      | none => findInLibraries name libs

/-- Source `APIDefinition.FindLibFile`: find library file by its name, also
searching the included libraries. -/
def APIDefinition.FindLibFile (apiDef : APIDefinition) (name : Str) : Str :=
  -- search in its document
  match apiDef.Uses.get name with
  | some filename => filename
  | none =>
      -- search in included libraries
      findInLibraries name apiDef.Libraries

/-! ## `codegen/libraries_go.go` -/

/-- Source `normalizePkgName`: normalize package name because not all characters can
be used as package name. -/
def normalizePkgName (name : Str) : Str :=
  stringsReplace name '-' ['_']

/-- Source `denormalizePkgName`: inverse of `normalizePkgName`. -/
def denormalizePkgName (name : Str) : Str :=
  stringsReplace name '_' ['-']

/-- Source `libRelDir`: get relative lib directory from library filename. -/
def libRelDir (filename : Str) : Str :=
  stringsTrimSuffix filename (filepathExt filename)

/-- Source `libImportPath`: get library import path from a type.  The global
`globAPIDef` is the first argument.  `none` is the exit of the process through
`log.Fatalf` when the library cannot be found. -/
def libImportPath (globAPIDef : APIDefinition) (rootImportPath typ : Str) : Option Str :=
  -- library use '.', return nothing if it is not a library
  if stringsIndex typ '.' < 0 then some []
  else
    -- library name in the current document
    match stringsSplit typ '.' with
    | [] => none
    | libName :: _ =>
        -- special package name, reserved for goraml
        if libName = "goraml".toList then
          some (filepathJoin [rootImportPath, "goraml".toList])
        else
          -- raml file of this lib
          let libRAMLFile := globAPIDef.FindLibFile (denormalizePkgName libName)
          if libRAMLFile = [] then none
          else
            -- relative lib package
            let libPkg := libRelDir libRAMLFile
            some (filepathJoin [rootImportPath, normalizePkgName libPkg])

/-! ## `raml/apidefinition.go`: security schemes and library loading -/

/-- Go `unicode.IsSpace`: the white space characters trimmed by
`strings.TrimSpace`. -/
def isGoSpace (c : Char) : Bool :=
  c == '\t' || c == '\n' || c == '\x0b' || c == '\x0c' || c == '\r' || c == ' '
    || c.toNat == 0x85 || c.toNat == 0xA0 || c.toNat == 0x1680
    || (0x2000 ≤ c.toNat && c.toNat ≤ 0x200A)
    || c.toNat == 0x2028 || c.toNat == 0x2029 || c.toNat == 0x202F
    || c.toNat == 0x205F || c.toNat == 0x3000

/-- Go `strings.TrimSpace(s)`: leading and trailing white space removed. -/
def stringsTrimSpace (s : Str) : Str :=
  ((s.dropWhile isGoSpace).reverse.dropWhile isGoSpace).reverse

/-- The assignment `m[key] = v`: the entry of `key` is replaced where there is
one, otherwise a new entry is added. -/
def GoMap.set {V : Type} (m : GoMap V) (key : Str) (v : V) : GoMap V :=
  if m.any (fun e => e.1 == key) then
    m.map (fun e => if e.1 == key then (key, v) else e)
  else m ++ [(key, v)]

/-- The comma-ok lookup of a security scheme, with the zero value when the
key is missing. -/
def lookupScheme (m : GoMap SecurityScheme) (key : Str) : SecurityScheme × Bool :=
  match m.get key with
  | some ss => (ss, true)
  | none => ({}, false)

/-- Source `APIDefinition.GetSecurityScheme`: gets security scheme by its
name, also searching the included libraries. -/
def APIDefinition.GetSecurityScheme (apiDef : APIDefinition) (name : Str) :
    SecurityScheme × Bool :=
  -- split library name by '.'
  match stringsSplit (stringsTrimSpace name) '.' with
  | [_] => lookupScheme apiDef.SecuritySchemes name
  | [libName, bare] =>
      match apiDef.Libraries.get libName with
      | none => ({}, false)
      | some l => lookupScheme l.SecuritySchemes bare
  | _ => ({}, false)

/-- The library loop of `PostProcess` over the entries of `Uses`; `ParseFile`
is the parser, which is not part of the sources at hand: it receives the file
path and the fresh library and returns the loaded library or an error.  The
result is the `Libraries` map built so far and the error returned, if any. -/
def loadLibraries (ParseFile : Str → Library → Except Str Library) (ramlFileDir : Str) :
    List (Str × Str) → GoMap Library → GoMap Library × Option Str
  | [], libs => (libs, none)
  | (name, path) :: rest, libs =>
      match ParseFile (filepathJoin [ramlFileDir, path]) (Library.mk path [] [] []) with
      | .error err =>
          (libs, some ("apiDef.PostProcess() failed to parse library\tname=".toList ++ name
            ++ ", path=".toList ++ path ++ "\n\terr=".toList ++ err))
      | .ok lib => loadLibraries ParseFile ramlFileDir rest (libs.set name lib)

/-- Source `APIDefinition.PostProcess`.  The parser `ParseFile` and the global
`ramlFileDir` are parameters.  The loops over traits, resource types and
resources work on declarations that are not part of the sources at hand and
receive neither `Uses` nor `Libraries`; `postProcessResources` is the error
they return (`none` is `nil`).  The result is the API definition after the
call and the returned error. -/
def APIDefinition.PostProcess (ParseFile : Str → Library → Except Str Library)
    (ramlFileDir : Str) (postProcessResources : APIDefinition → Option Str)
    (apiDef : APIDefinition) (filename : Str) : APIDefinition × Option Str :=
  let apiDef := { apiDef with Filename := filename, Libraries := [] }
  match loadLibraries ParseFile ramlFileDir apiDef.Uses [] with
  | (libs, some err) => ({ apiDef with Libraries := libs }, some err)
  | (libs, none) =>
      let apiDef := { apiDef with Libraries := libs }
      (apiDef, postProcessResources apiDef)

/-! ## `codegen/libraries_go.go`: library packages -/

/-- Go `filepath.Base(path)`: the last element of `path`, trailing slashes
removed first; `.` for the empty path and `/` for a path of slashes only. -/
def filepathBase (path : Str) : Str :=
  if path = [] then ['.']
  else
    let stripped := path.reverse.dropWhile (fun c => c == '/')
    let last := (stripped.takeWhile (fun c => c != '/')).reverse
    if last = [] then ['/'] else last

/-- Source `goLibrary`: an RAML library, implemented as a package in Go. -/
structure goLibrary where
  Library : Library
  PackageName : Str
  baseDir : Str
  dir : Str

/-- Source `newGoLibrary`: create new library instance. -/
def newGoLibrary (lib : Library) (baseDir : Str) : goLibrary :=
  -- package name : base of filename without the extension
  let packageName := stringsTrimSuffix (filepathBase lib.Filename) (filepathExt lib.Filename)
  let packageName := normalizePkgName packageName
  -- package directory : filename without the extension
  let relDir := libRelDir lib.Filename
  { Library := lib, PackageName := packageName, baseDir := baseDir,
    dir := normalizePkgName (filepathJoin [baseDir, relDir]) }

/-! ## `codegen/utils.go`: file generation and value conversion -/

/-- What a call leaves behind outside the file contents. -/
inductive Event where
  | log (msg : Str) : Event
  | assetLoaded (tmplFile : Str) : Event
  | templateParsed (tmplName : Str) : Event
  | fileCreated (filename : Str) : Event
  | templateExecuted (tmplName : Str) : Event
  | goFmtRun (filename : Str) : Event
  deriving DecidableEq, Repr

/-- The state `generateFile` works on: the files of the file system with
their bytes, and the trace of what has been done. -/
structure World where
  files : GoMap Str := []
  events : List Event := []
  deriving DecidableEq, Repr

/-- The collaborators of `generateFile` that are outside the sources at hand,
`D` being the type of the template data: whether looking a path up fails for
a reason other than absence, the embedded templates (`templates.Asset`), the
template parser (its error), the error of `os.Create`, the output and error
of `ExecuteTemplate`, and the result of `go fmt` on a file's bytes. -/
structure Env (D : Type) where
  statDenied : Str → Bool
  asset : Str → Except Str Str
  parseError : Str → Str → Option Str
  createError : World → Str → Option Str
  execute : Str → Str → D → Str × Option Str
  goFmt : Str → Except Str Str

/-- The three outcomes of `os.Stat` the source tells apart. -/
inductive StatResult where
  | ok : StatResult
  | notExist : StatResult
  | otherError : StatResult
  deriving DecidableEq, Repr

/-- Go `os.Stat(path)`, up to `os.IsNotExist`: a path that is there is never
reported as not existing. -/
def osStat {D : Type} (env : Env D) (w : World) (path : Str) : StatResult :=
  if env.statDenied path then .otherError
  else
    match w.files.get path with
    | some _ => .ok
    | none => .notExist

/-- Source `isFileExist`: check if a file exists. -/
def isFileExist {D : Type} (env : Env D) (w : World) (filePath : Str) : Bool :=
  if osStat env w filePath = .notExist then false else true

/-- Source `runGoFmt`: run the `go fmt` command on a file; `env.goFmt` gives
the formatted bytes or the combined output of a failed run. -/
def runGoFmt {D : Type} (env : Env D) (w : World) (filePath : Str) : World × Option Str :=
  let w := { w with events := w.events ++ [Event.goFmtRun filePath] }
  match env.goFmt ((w.files.get filePath).getD []) with
  | .error out =>
      ({ w with events := w.events ++ [Event.log ("Error running go fmt on '".toList
          ++ filePath ++ "' failed:\n".toList ++ out)] },
        some "go fmt failed".toList)
  | .ok formatted => ({ w with files := w.files.set filePath formatted }, none)

/-- Go `strings.Replace(s, "./", "", -1)`: every occurrence of `./`, taken
from the left, is removed. -/
def removeDotSlash : Str → Str
  | [] => []
  | [c] => [c]
  | c :: d :: rest =>
      if c = '.' ∧ d = '/' then removeDotSlash rest else c :: removeDotSlash (d :: rest)

/-- Source `generateFile`: generate a file from a template; if the file
already exists and `override` is false, the file is not regenerated.  The
result is the state after the call and the returned error (`none` is
`nil`). -/
def generateFile {D : Type} (env : Env D) (w : World) (data : D)
    (tmplFile tmplName filename : Str) (override : Bool) : World × Option Str :=
  if !override && isFileExist env w filename then
    ({ w with events := w.events ++ [Event.log ("file ".toList ++ filename
        ++ " already exist and override=false, no need to regenerate".toList)] }, none)
  else
    -- all template files path is relative to current directory
    let tmplFile := removeDotSlash tmplFile
    let w := { w with events := w.events ++ [Event.assetLoaded tmplFile] }
    match env.asset tmplFile with
    | .error err => (w, some err)
    | .ok byteData =>
        let w := { w with events := w.events ++ [Event.templateParsed tmplName] }
        match env.parseError tmplName byteData with
        | some err => (w, some err)
        | none =>
            match env.createError w filename with
            | some err => (w, some err)
            | none =>
                let w : World :=
                  { files := w.files.set filename [],
                    events := w.events ++ [Event.fileCreated filename,
                      Event.log ("generating file ".toList ++ filename)] }
                let out := env.execute byteData tmplName data
                let w : World :=
                  { files := w.files.set filename out.1,
                    events := w.events ++ [Event.templateExecuted tmplName] }
                match out.2 with
                | some err => (w, some err)
                | none =>
                    if hasSuffix filename ".go".toList then runGoFmt env w filename
                    else (w, none)

/-- A Go value of type `interface{}` as `interfaceToString` tells values
apart: a string, a slice `[]interface{}`, or a value of any other type. -/
inductive GoValue where
  | str (s : Str) : GoValue
  | slice (elems : List GoValue) : GoValue
  | other : GoValue

mutual
/-- Source `interfaceToString`: convert interface type to string.  `none` is
the run-time panic of `resultStr[:len(resultStr)-1]` on an empty
`resultStr`. -/
def interfaceToString : GoValue → Option Str
  | .str s => some s
  | .slice elems =>
      match interfaceToStringLoop elems [] with
      | none => none
      | some resultStr =>
          if resultStr.length ≥ 1 then some (resultStr.take (resultStr.length - 1))
          else none
  | .other => some []
/-- The loop of `interfaceToString` over the elements of a slice, `resultStr`
being the string built so far. -/
def interfaceToStringLoop : List GoValue → Str → Option Str
  | [], resultStr => some resultStr
  | v :: vs, resultStr =>
      match interfaceToString v with
      | none => none
      | some s => interfaceToStringLoop vs (resultStr ++ s ++ [','])
end

/-! ## `codegen/method_python.go`: the arguments of a client method -/

/-- The first part of `pythonClientMethod.setup`, up to the assignments of
`PRArgs` and `Params`: the method as it is when the method name is about to
be derived. -/
def pythonClientMethod.setupParams (pcm : pythonClientMethod) : pythonClientMethod :=
  let withBody : Bool :=
    pcm.base.Verb == "PUT".toList || pcm.base.Verb == "POST".toList
      || pcm.base.Verb == "PATCH".toList
  -- for method with request body, we add the data argument
  let params : List Str :=
    if withBody then ["self".toList, "data".toList] else ["self".toList]
  let prArgs : Str := if withBody then ", data".toList else []
  let params := params ++ getResourceParams pcm.base.Resource
  let paramsStr :=
    stringsJoin (params ++ ["headers=None, query_params=None".toList]) [',', ' ']
  { base := { pcm.base with Params := paramsStr }, PRArgs := prArgs }

/-! ## Specification-side vocabulary: templates, path segments, expected results -/

/-- Both brace replacements of `paramizingURI`, applied to a part of the URI. -/
def bracesToConcat (u : Str) : Str :=
  stringsReplace (stringsReplace u '{' ['"', '+']) '}' ['+', '"']

/-- The template `L1{p1}L2{p2}...Ln{pn}` of the pairs `(Li, pi)`. -/
def templateOf : List (Str × Str) → Str
  | [] => []
  | lp :: rest => lp.1 ++ ('{' :: lp.2) ++ ('}' :: templateOf rest)

/-- The operands `"L1"`, `p1`, `"L2"`, `p2`, ... of the expected expression. -/
def concatOperands : List (Str × Str) → List Str
  | [] => []
  | lp :: rest => (('"' :: lp.1) ++ ['"']) :: lp.2 :: concatOperands rest

/-- The expected expression `"L1"+p1+"L2"+p2+...+"Ln"+pn`. -/
def concatExprOf (pairs : List (Str × Str)) : Str :=
  stringsJoin (concatOperands pairs) ['+']

/-- A path segment of the form `/name` or `/{name}`. -/
inductive PathSeg where
  | lit (name : Str) : PathSeg
  | param (name : Str) : PathSeg
  deriving DecidableEq, Repr

/-- The name of a segment. -/
def PathSeg.name : PathSeg → Str
  | .lit n => n
  | .param n => n

/-- The URI text of a segment. -/
def PathSeg.uri : PathSeg → Str
  | .lit n => '/' :: n
  | .param n => '/' :: '{' :: (n ++ ['}'])

/-- A name with its first letter lower-cased. -/
def lowerFirst : Str → Str
  | [] => []
  | c :: cs => c.toLower :: cs

/-- A name with its first letter upper-cased. -/
def upperFirst : Str → Str
  | [] => []
  | c :: cs => c.toUpper :: cs

/-- The fragment of a segment in a derived method name. -/
def PathSeg.frag : PathSeg → Str
  | .lit n => lowerFirst n
  | .param n => 'b' :: 'y' :: upperFirst n

/-- A segment whose name is non-empty and made of ASCII letters and digits. -/
def PathSeg.valid (s : PathSeg) : Bool :=
  !s.name.isEmpty && s.name.all Char.isAlphanum

/-- A piece of a URI template: literal text or a placeholder `{name}`. -/
inductive Piece where
  | lit (text : Str) : Piece
  | param (name : Str) : Piece
  deriving DecidableEq, Repr

/-- The text of a piece. -/
def Piece.render : Piece → Str
  | .lit text => text
  | .param name => '{' :: (name ++ ['}'])

/-- The text of a template. -/
def renderTemplate : List Piece → Str
  | [] => []
  | pc :: rest => pc.render ++ renderTemplate rest

/-- The placeholder names of a template, left to right. -/
def templateNames : List Piece → List Str
  | [] => []
  | .lit _ :: rest => templateNames rest
  | .param name :: rest => name :: templateNames rest

/-- Literal text has no opening brace; a placeholder name is non-empty and
made of the characters of `[\w\s]`: letters, digits, underscore, white
space. -/
def Piece.wellFormed : Piece → Bool
  | .lit text => !text.contains '{'
  | .param name => !name.isEmpty && name.all isParamChar

/-! ## Lemmas on the string helpers -/

theorem stringsReplace_nil (old : Char) (new : Str) : stringsReplace [] old new = [] := rfl

theorem stringsReplace_cons (c : Char) (cs : Str) (old : Char) (new : Str) :
    stringsReplace (c :: cs) old new
      = (if c = old then new else [c]) ++ stringsReplace cs old new := rfl

theorem stringsReplace_append (s t : Str) (old : Char) (new : Str) :
    stringsReplace (s ++ t) old new = stringsReplace s old new ++ stringsReplace t old new := by
  induction s with
  | nil => rfl
  | cons c cs ih => simp [stringsReplace_cons, ih]

theorem stringsReplace_of_not_mem (s : Str) (old : Char) (new : Str) (h : old ∉ s) :
    stringsReplace s old new = s := by
  induction s with
  | nil => rfl
  | cons c cs ih =>
    simp only [List.mem_cons, not_or] at h
    have hc : ¬ c = old := fun e => h.1 e.symm
    simp [stringsReplace_cons, hc, ih h.2]

theorem stringsReplace_remove (s : Str) (old : Char) :
    stringsReplace s old [] = s.filter (fun c => c ≠ old) := by
  induction s with
  | nil => rfl
  | cons c cs ih =>
    by_cases hc : c = old
    · simp [stringsReplace_cons, hc, ih]
    · simp [stringsReplace_cons, hc, ih]

theorem not_mem_stringsReplace (s : Str) (old : Char) (new : Str) (h : old ∉ new) :
    old ∉ stringsReplace s old new := by
  induction s with
  | nil => simp [stringsReplace_nil]
  | cons c cs ih =>
    by_cases hc : c = old
    · simp [stringsReplace_cons, hc, h, ih]
    · have hc2 : ¬ old = c := fun e => hc e.symm
      simp [stringsReplace_cons, hc, hc2, ih]

theorem stringsReplace_length_one (s : Str) (old new : Char) :
    (stringsReplace s old [new]).length = s.length := by
  induction s with
  | nil => rfl
  | cons c cs ih =>
    by_cases hc : c = old <;> simp [stringsReplace_cons, hc, ih]

theorem stringsSplit_ne_nil (s : Str) (sep : Char) : stringsSplit s sep ≠ [] := by
  induction s with
  | nil => simp [stringsSplit]
  | cons c cs ih =>
    unfold stringsSplit
    by_cases hc : c = sep
    · simp [hc]
    · simp only [hc, if_false]
      cases h : stringsSplit cs sep with
      | nil => simp
      | cons piece pieces => simp

theorem stringsSplit_append_sep (a rest : Str) (sep : Char) (h : sep ∉ a) :
    stringsSplit (a ++ sep :: rest) sep = a :: stringsSplit rest sep := by
  induction a with
  | nil => simp [stringsSplit]
  | cons c cs ih =>
    simp only [List.mem_cons, not_or] at h
    have hc : ¬ c = sep := fun e => h.1 e.symm
    have ih2 := ih h.2
    simp only [List.cons_append]
    rw [stringsSplit]
    simp [hc, ih2]

theorem stringsIndex_nonneg_of_mem (s : Str) (sep : Char) (h : sep ∈ s) :
    ¬ stringsIndex s sep < 0 := by
  unfold stringsIndex
  simp only [h, if_true]
  omega

/-! ## Round trip of the package-name normalization -/

/-- C7: for every string `x` that contains no underscore,
`denormalizePkgName (normalizePkgName x) = x`. -/
theorem denormalize_normalize_of_no_underscore (x : Str) (h : '_' ∉ x) :
    denormalizePkgName (normalizePkgName x) = x := by
  unfold denormalizePkgName normalizePkgName
  induction x with
  | nil => rfl
  | cons c cs ih =>
    simp only [List.mem_cons, not_or] at h
    have hc : ¬ c = '_' := fun e => h.1 e.symm
    by_cases hd : c = '-'
    · subst hd
      simp [stringsReplace_cons, ih h.2]
    · simp [stringsReplace_cons, hd, hc, ih h.2]

/-- Witness of C7 at the hyphenated name `my-lib`. -/
theorem denormalize_normalize_of_no_underscore_witness :
    '_' ∉ "my-lib".toList
      ∧ denormalizePkgName (normalizePkgName "my-lib".toList) = "my-lib".toList :=
  ⟨by decide, denormalize_normalize_of_no_underscore "my-lib".toList (by decide)⟩

/-- C8: for every string `x` that contains both a hyphen and an underscore,
`denormalizePkgName (normalizePkgName x)` is different from `x`. -/
theorem denormalize_normalize_lossy (x : Str) (_hh : '-' ∈ x) (hu : '_' ∈ x) :
    denormalizePkgName (normalizePkgName x) ≠ x := by
  intro heq
  have hno : '_' ∉ denormalizePkgName (normalizePkgName x) := by
    unfold denormalizePkgName
    exact not_mem_stringsReplace _ _ _ (by decide)
  rw [heq] at hno
  exact hno hu

/-- Witness of C8 at the mixed name `my-lib_v2`. -/
theorem denormalize_normalize_lossy_witness :
    ('-' ∈ "my-lib_v2".toList ∧ '_' ∈ "my-lib_v2".toList)
      ∧ denormalizePkgName (normalizePkgName "my-lib_v2".toList) ≠ "my-lib_v2".toList :=
  ⟨by decide, denormalize_normalize_lossy "my-lib_v2".toList (by decide) (by decide)⟩

/-! ## The reserved alias -/

/-- C10: for every API definition, every root import path `r` and every
qualified type name whose alias is the reserved `goraml`, `libImportPath`
returns `r` joined with `goraml`; the document's `Uses` and `Libraries` are
not consulted. -/
theorem libImportPath_goraml (apiDef : APIDefinition) (r rest : Str) :
    libImportPath apiDef r ("goraml".toList ++ '.' :: rest)
      = some (filepathJoin [r, "goraml".toList]) := by
  have hsplit : stringsSplit ("goraml".toList ++ '.' :: rest) '.'
      = "goraml".toList :: stringsSplit rest '.' :=
    stringsSplit_append_sep _ _ _ (by decide)
  have hidx : ¬ stringsIndex ("goraml".toList ++ '.' :: rest) '.' < 0 :=
    stringsIndex_nonneg_of_mem _ _ (by simp)
  unfold libImportPath
  rw [if_neg hidx, hsplit]
  simp

/-! ## Method names taken from the display name -/

theorem setupMethodName_of_displayName (DisplayName Verb : Str) (r : Option Resource)
    (h : DisplayName ≠ []) :
    setupMethodName DisplayName Verb r = some (DisplayName.filter (fun c => c ≠ ' ')) := by
  have hlen : DisplayName.length > 0 := List.length_pos.mpr h
  unfold setupMethodName
  rw [if_pos hlen, stringsReplace_remove]

/-- C6, counterexample: on the display name `list<TAB>users` both `setup`
functions keep the tab, so the method name still contains a whitespace
character. -/
theorem setup_displayName_keeps_tab :
    ((pythonServerMethod.setup (fun _ => false) (fun _ => Except.ok ())
        { base := { DisplayName := "list\tusers".toList, Verb := "GET".toList } }
        (some (Resource.root "/users".toList))).map (fun res => res.1.base.MethodName)
      = some "list\tusers".toList)
    ∧ ((pythonClientMethod.setup
        { base := { DisplayName := "list\tusers".toList, Verb := "GET".toList } }).map
          (fun res => res.base.MethodName)
      = some "list\tusers".toList)
    ∧ '\t' ∈ "list\tusers".toList := by
  decide

/-- C6, amended: for every python server or client method whose display name
is non-empty, `setup` returns and sets `MethodName` to the display name with
every space character (U+0020) removed: the result contains no space and is
otherwise the display name's characters in order (other whitespace such as a
tab or a newline is kept). -/
theorem setup_methodName_of_displayName {M : Type} (validateSecurityScheme : Str → Bool)
    (newPythonOauth2Middleware : DefinitionChoice → Except Str M)
    (pm : pythonServerMethod M) (r : Option Resource) (pcm : pythonClientMethod) :
    (pm.base.DisplayName ≠ [] →
      ∃ res, pythonServerMethod.setup validateSecurityScheme newPythonOauth2Middleware pm r
          = some res
        ∧ res.1.base.MethodName = pm.base.DisplayName.filter (fun c => c ≠ ' ')
        ∧ ' ' ∉ res.1.base.MethodName)
    ∧ (pcm.base.DisplayName ≠ [] →
      ∃ res, pythonClientMethod.setup pcm = some res
        ∧ res.base.MethodName = pcm.base.DisplayName.filter (fun c => c ≠ ' ')
        ∧ ' ' ∉ res.base.MethodName) := by
  constructor
  · intro h
    simp [pythonServerMethod.setup, setupMethodName_of_displayName _ _ _ h]
  · intro h
    simp [pythonClientMethod.setup, setupMethodName_of_displayName _ _ _ h]

/-- Witness of the amended C6 at the display name `list users`. -/
theorem setup_methodName_of_displayName_witness :
    (∃ res, pythonServerMethod.setup (fun _ => false) (fun _ => Except.ok ())
          { base := { DisplayName := "list users".toList } } none = some res
        ∧ res.1.base.MethodName = "listusers".toList
        ∧ ' ' ∉ res.1.base.MethodName)
    ∧ (∃ res, pythonClientMethod.setup { base := { DisplayName := "list users".toList } }
          = some res
        ∧ res.base.MethodName = "listusers".toList
        ∧ ' ' ∉ res.base.MethodName) :=
  ⟨(setup_methodName_of_displayName (fun _ => false) (fun _ => Except.ok ())
      { base := { DisplayName := "list users".toList } } none
      { base := { DisplayName := "list users".toList } }).1 (by decide),
   (@setup_methodName_of_displayName Unit (fun _ => false) (fun _ => Except.ok ())
      { base := { DisplayName := "list users".toList } } none
      { base := { DisplayName := "list users".toList } }).2 (by decide)⟩

/-! ## Order of the extracted parameters -/

theorem appendMatches_append (params matches_ : List Str) :
    appendMatches params matches_ = params ++ appendMatches [] matches_ := by
  unfold appendMatches
  induction matches_ generalizing params with
  | nil => simp
  | cons v vs ih =>
    simp only [List.foldl_cons, List.nil_append]
    rw [ih (params ++ _), ih [_]]
    simp

theorem getResourceParamsRec_append (r : Resource) (params : List Str) :
    getResourceParamsRec r params = params ++ getResourceParamsRec r [] := by
  induction r generalizing params with
  | root u =>
    simp only [getResourceParamsRec]
    exact appendMatches_append _ _
  | child u p ih =>
    simp only [getResourceParamsRec]
    rw [ih (appendMatches params _), ih (appendMatches [] _), appendMatches_append params,
      List.append_assoc]

/-- The parameters of a nested resource are those of its own segment followed
by those of its parent chain. -/
theorem getResourceParams_child (u : Str) (p : Resource) :
    getResourceParams (some (Resource.child u p))
      = appendMatches [] (regexFindAllString u) ++ getResourceParams (some p) := by
  simp only [getResourceParams, _getResourceParams, getResourceParamsRec]
  exact getResourceParamsRec_append p _

/-- C1, the code on the nested example: for the root `/users/{userId}`
with the child `/address/{addressId}`, `getResourceParams` of the child lists
the child's parameter first and the root's parameter last. -/
theorem getResourceParams_nested_leaf_first :
    getResourceParams
        (some (Resource.child "/address/{addressId}".toList
          (Resource.root "/users/{userId}".toList)))
      = ["addressId".toList, "userId".toList] := by
  decide

/-! ## `paramizingURI`, by the end of the URI -/

theorem hasSuffix_eq_isPrefixOf_reverse (s suf : Str) :
    hasSuffix s suf = suf.reverse.isPrefixOf s.reverse := by
  rw [Bool.eq_iff_iff]
  simp only [hasSuffix, List.isPrefixOf_iff_prefix, List.reverse_prefix,
    List.suffix_iff_eq_drop, beq_iff_eq]
  exact eq_comm

theorem take_length_sub_one (x : Str) (a : Char) :
    (x ++ [a]).take ((x ++ [a]).length - 1) = x := by
  simp

theorem take_length_sub_two (x : Str) (a b : Char) :
    (x ++ [a, b]).take ((x ++ [a, b]).length - 2) = x := by
  simp

theorem bracesToConcat_append (u v : Str) :
    bracesToConcat (u ++ v) = bracesToConcat u ++ bracesToConcat v := by
  simp [bracesToConcat, stringsReplace_append]

theorem paramizingURI_snoc_close (u : Str) :
    paramizingURI (u ++ ['}']) = '"' :: bracesToConcat u := by
  have h1 : stringsReplace (['"'] ++ (u ++ ['}']) ++ ['"']) '{' ['"', '+']
      = ('"' :: stringsReplace u '{' ['"', '+'] ++ ['}']) ++ ['"'] := by
    simp [stringsReplace_append, stringsReplace_cons, stringsReplace_nil]
  have h2 : hasSuffix (('"' :: stringsReplace u '{' ['"', '+'] ++ ['}']) ++ ['"']) ['}', '"']
      = true := by
    simp [hasSuffix_eq_isPrefixOf_reverse, List.isPrefixOf_cons₂, List.isPrefixOf_cons₂]
  unfold paramizingURI
  simp only [h1, h2, Bool.or_true, if_true, take_length_sub_one]
  have h3 : stringsReplace ('"' :: stringsReplace u '{' ['"', '+'] ++ ['}']) '}' ['+', '"']
      = ('"' :: bracesToConcat u) ++ ['+', '"'] := by
    simp [stringsReplace_append, stringsReplace_cons, stringsReplace_nil, bracesToConcat]
  have h4 : hasSuffix (('"' :: bracesToConcat u) ++ ['+', '"']) ['+', '"'] = true := by
    simp [hasSuffix_eq_isPrefixOf_reverse, List.isPrefixOf_cons₂, List.isPrefixOf_cons₂]
  simp only [h3, h4, if_true, take_length_sub_two]

theorem paramizingURI_nil : paramizingURI [] = ['"', '"'] := by decide

theorem paramizingURI_snoc_close_slash (u : Str) :
    paramizingURI (u ++ ['}', '/']) = '"' :: bracesToConcat u ++ ['+', '"', '/'] := by
  have h1 : stringsReplace (['"'] ++ (u ++ ['}', '/']) ++ ['"']) '{' ['"', '+']
      = ('"' :: stringsReplace u '{' ['"', '+'] ++ ['}', '/']) ++ ['"'] := by
    simp [stringsReplace_append, stringsReplace_cons, stringsReplace_nil]
  have h2 : hasSuffix (('"' :: stringsReplace u '{' ['"', '+'] ++ ['}', '/']) ++ ['"'])
      ['}', '/', '"'] = true := by
    simp [hasSuffix_eq_isPrefixOf_reverse, List.isPrefixOf_cons₂, List.isPrefixOf_cons₂]
  unfold paramizingURI
  simp only [h1, h2, Bool.true_or, if_true, take_length_sub_one]
  have h3 : stringsReplace ('"' :: stringsReplace u '{' ['"', '+'] ++ ['}', '/']) '}' ['+', '"']
      = '"' :: bracesToConcat u ++ ['+', '"', '/'] := by
    simp [stringsReplace_append, stringsReplace_cons, stringsReplace_nil, bracesToConcat]
  have h4 : hasSuffix ('"' :: bracesToConcat u ++ ['+', '"', '/']) ['+', '"'] = false := by
    simp [hasSuffix_eq_isPrefixOf_reverse, List.isPrefixOf_cons₂, List.isPrefixOf_cons₂]
  simp only [h3, h4, Bool.false_eq_true, if_false]

theorem paramizingURI_snoc_open (u : Str) :
    paramizingURI (u ++ ['{']) = '"' :: bracesToConcat u ++ ['"'] := by
  have h1 : stringsReplace (['"'] ++ (u ++ ['{']) ++ ['"']) '{' ['"', '+']
      = '"' :: stringsReplace u '{' ['"', '+'] ++ ['"', '+', '"'] := by
    simp [stringsReplace_append, stringsReplace_cons, stringsReplace_nil]
  have h2 : hasSuffix ('"' :: stringsReplace u '{' ['"', '+'] ++ ['"', '+', '"'])
      ['}', '/', '"'] = false := by
    simp [hasSuffix_eq_isPrefixOf_reverse, List.isPrefixOf_cons₂, List.isPrefixOf_cons₂]
  have h2b : hasSuffix ('"' :: stringsReplace u '{' ['"', '+'] ++ ['"', '+', '"'])
      ['}', '"'] = false := by
    simp [hasSuffix_eq_isPrefixOf_reverse, List.isPrefixOf_cons₂, List.isPrefixOf_cons₂]
  unfold paramizingURI
  simp only [h1, h2, h2b, Bool.or_false]
  have h3 : stringsReplace ('"' :: stringsReplace u '{' ['"', '+'] ++ ['"', '+', '"']) '}' ['+', '"']
      = ('"' :: bracesToConcat u ++ ['"']) ++ ['+', '"'] := by
    simp [stringsReplace_append, stringsReplace_cons, stringsReplace_nil, bracesToConcat]
  have h4 : hasSuffix (('"' :: bracesToConcat u ++ ['"']) ++ ['+', '"']) ['+', '"'] = true := by
    simp [hasSuffix_eq_isPrefixOf_reverse, List.isPrefixOf_cons₂, List.isPrefixOf_cons₂]
  simp only [Bool.false_eq_true, if_false, h3, h4, if_true, take_length_sub_two]

theorem paramizingURI_snoc_plus (u : Str) :
    paramizingURI (u ++ ['+']) = '"' :: bracesToConcat u := by
  have h1 : stringsReplace (['"'] ++ (u ++ ['+']) ++ ['"']) '{' ['"', '+']
      = '"' :: stringsReplace u '{' ['"', '+'] ++ ['+', '"'] := by
    simp [stringsReplace_append, stringsReplace_cons, stringsReplace_nil]
  have h2 : hasSuffix ('"' :: stringsReplace u '{' ['"', '+'] ++ ['+', '"'])
      ['}', '/', '"'] = false := by
    simp [hasSuffix_eq_isPrefixOf_reverse, List.isPrefixOf_cons₂, List.isPrefixOf_cons₂]
  have h2b : hasSuffix ('"' :: stringsReplace u '{' ['"', '+'] ++ ['+', '"'])
      ['}', '"'] = false := by
    simp [hasSuffix_eq_isPrefixOf_reverse, List.isPrefixOf_cons₂, List.isPrefixOf_cons₂]
  unfold paramizingURI
  simp only [h1, h2, h2b, Bool.or_false]
  have h3 : stringsReplace ('"' :: stringsReplace u '{' ['"', '+'] ++ ['+', '"']) '}' ['+', '"']
      = ('"' :: bracesToConcat u) ++ ['+', '"'] := by
    simp [stringsReplace_append, stringsReplace_cons, stringsReplace_nil, bracesToConcat]
  have h4 : hasSuffix (('"' :: bracesToConcat u) ++ ['+', '"']) ['+', '"'] = true := by
    simp [hasSuffix_eq_isPrefixOf_reverse, List.isPrefixOf_cons₂, List.isPrefixOf_cons₂]
  simp only [Bool.false_eq_true, if_false, h3, h4, if_true, take_length_sub_two]

theorem eq_nil_or_snoc {α : Type} (l : List α) : l = [] ∨ ∃ v d, l = v ++ [d] := by
  rcases List.eq_nil_or_concat l with h | ⟨v, d, h⟩
  · exact Or.inl h
  · exact Or.inr ⟨v, d, by simpa [List.concat_eq_append] using h⟩

/-- A last character that is neither a brace nor `+`, and is not a slash
right after a closing brace, leaves both trimming steps idle. -/
theorem paramizingURI_snoc_plain (u : Str) (c : Char) (hc1 : c ≠ '}') (hc2 : c ≠ '{')
    (hc3 : c ≠ '+') (hslash : c = '/' → hasSuffix u ['}'] = false) :
    paramizingURI (u ++ [c]) = '"' :: bracesToConcat u ++ [c, '"'] := by
  have h1 : stringsReplace (['"'] ++ (u ++ [c]) ++ ['"']) '{' ['"', '+']
      = '"' :: stringsReplace u '{' ['"', '+'] ++ [c, '"'] := by
    simp [stringsReplace_append, stringsReplace_cons, stringsReplace_nil, hc2]
  have h2b : hasSuffix ('"' :: stringsReplace u '{' ['"', '+'] ++ [c, '"'])
      ['}', '"'] = false := by
    simp [hasSuffix_eq_isPrefixOf_reverse, List.isPrefixOf_cons₂, hc1, Ne.symm hc1]
  have h2 : hasSuffix ('"' :: stringsReplace u '{' ['"', '+'] ++ [c, '"'])
      ['}', '/', '"'] = false := by
    by_cases hs : c = '/'
    · have hu := hslash hs
      subst hs
      rcases eq_nil_or_snoc u with hnil | ⟨v, d, hv⟩
      · subst hnil
        decide
      · subst hv
        have hd : d ≠ '}' := by
          intro hd
          subst hd
          simp [hasSuffix_eq_isPrefixOf_reverse, List.isPrefixOf_cons₂, List.isPrefixOf_cons₂] at hu
        by_cases hd2 : d = '{'
        · subst hd2
          simp [hasSuffix_eq_isPrefixOf_reverse, List.isPrefixOf_cons₂, stringsReplace_append, stringsReplace_cons,
            stringsReplace_nil]
        · simp [hasSuffix_eq_isPrefixOf_reverse, List.isPrefixOf_cons₂, stringsReplace_append, stringsReplace_cons,
            stringsReplace_nil, hd2, hd, Ne.symm hd]
    · simp [hasSuffix_eq_isPrefixOf_reverse, List.isPrefixOf_cons₂, hs, Ne.symm hs]
  unfold paramizingURI
  simp only [h1, h2, h2b, Bool.or_false]
  have h3 : stringsReplace ('"' :: stringsReplace u '{' ['"', '+'] ++ [c, '"']) '}' ['+', '"']
      = '"' :: bracesToConcat u ++ [c, '"'] := by
    simp [stringsReplace_append, stringsReplace_cons, stringsReplace_nil, bracesToConcat, hc1]
  have h4 : hasSuffix ('"' :: bracesToConcat u ++ [c, '"']) ['+', '"'] = false := by
    simp [hasSuffix_eq_isPrefixOf_reverse, List.isPrefixOf_cons₂, hc3, Ne.symm hc3]
  simp only [h3, h4, Bool.false_eq_true, if_false]

/-! ## `paramizingURI` on a template that ends with a placeholder -/

theorem stringsJoin_singleton (a sep : Str) : stringsJoin [a] sep = a := by
  simp [stringsJoin, List.intercalate]

theorem stringsJoin_cons_cons (a b : Str) (rest : List Str) (sep : Str) :
    stringsJoin (a :: b :: rest) sep = a ++ sep ++ stringsJoin (b :: rest) sep := by
  simp [stringsJoin, List.intercalate]

theorem bracesToConcat_of_no_brace (s : Str) (h1 : '{' ∉ s) (h2 : '}' ∉ s) :
    bracesToConcat s = s := by
  unfold bracesToConcat
  rw [stringsReplace_of_not_mem _ _ _ h1, stringsReplace_of_not_mem _ _ _ h2]

theorem bracesToConcat_cons_open (s : Str) :
    bracesToConcat ('{' :: s) = '"' :: '+' :: bracesToConcat s := by
  simp [bracesToConcat, stringsReplace_cons]

theorem bracesToConcat_cons_close (s : Str) :
    bracesToConcat ('}' :: s) = '+' :: '"' :: bracesToConcat s := by
  simp [bracesToConcat, stringsReplace_cons]

theorem bracesToConcat_templateOf (pairs : List (Str × Str))
    (h : ∀ lp ∈ pairs, ('{' ∉ lp.1 ∧ '}' ∉ lp.1) ∧ ('{' ∉ lp.2 ∧ '}' ∉ lp.2)) (tail : Str)
    (hne : pairs ≠ []) :
    '"' :: (bracesToConcat (templateOf pairs) ++ tail)
      = concatExprOf pairs ++ ('+' :: '"' :: tail) := by
  induction pairs with
  | nil => exact absurd rfl hne
  | cons lp rest ih =>
    have hlp := h lp (List.mem_cons_self _ _)
    have hrest : ∀ q ∈ rest, ('{' ∉ q.1 ∧ '}' ∉ q.1) ∧ ('{' ∉ q.2 ∧ '}' ∉ q.2) :=
      fun q hq => h q (List.mem_cons_of_mem _ hq)
    have hhead : bracesToConcat (templateOf (lp :: rest))
        = lp.1 ++ ('"' :: '+' :: lp.2) ++ ('+' :: '"' :: bracesToConcat (templateOf rest)) := by
      simp only [templateOf, bracesToConcat_append, bracesToConcat_cons_open,
        bracesToConcat_cons_close, bracesToConcat_of_no_brace _ hlp.1.1 hlp.1.2,
        bracesToConcat_of_no_brace _ hlp.2.1 hlp.2.2]
    cases rest with
    | nil =>
      rw [hhead]
      simp [templateOf, bracesToConcat, stringsReplace_nil, concatExprOf, concatOperands,
        stringsJoin_cons_cons, stringsJoin_singleton]
    | cons q rest2 =>
      have ih2 := ih hrest (by simp)
      rw [hhead]
      have hexpr : concatExprOf (lp :: q :: rest2)
          = (('"' :: lp.1) ++ ['"']) ++ ['+'] ++ lp.2 ++ ['+'] ++ concatExprOf (q :: rest2) := by
        simp [concatExprOf, concatOperands, stringsJoin_cons_cons]
      rw [hexpr]
      simp only [List.append_assoc, List.cons_append, List.nil_append, List.cons.injEq,
        true_and]
      rw [List.append_cancel_left_eq, List.cons.injEq, List.cons.injEq]
      refine ⟨rfl, rfl, ?_⟩
      rw [List.append_cancel_left_eq, List.cons.injEq]
      refine ⟨rfl, ?_⟩
      exact ih2

theorem templateOf_eq_snoc (pairs : List (Str × Str)) (hne : pairs ≠ []) :
    ∃ u, templateOf pairs = u ++ ['}'] := by
  induction pairs with
  | nil => exact absurd rfl hne
  | cons lp rest ih =>
    cases rest with
    | nil => exact ⟨lp.1 ++ ('{' :: lp.2), by simp [templateOf]⟩
    | cons q rest2 =>
      obtain ⟨u, hu⟩ := ih (by simp)
      refine ⟨lp.1 ++ ('{' :: lp.2) ++ ('}' :: u), ?_⟩
      rw [templateOf, hu]
      simp

/-- C3: for every non-empty sequence of literals `L1..Ln` and parameter
names `p1..pn`, none of them containing a brace, `paramizingURI` applied to
the template `L1{p1}L2{p2}...Ln{pn}` returns exactly
`"L1"+p1+"L2"+p2+...+"Ln"+pn`. -/
theorem paramizingURI_template (pairs : List (Str × Str)) (hne : pairs ≠ [])
    (h : ∀ lp ∈ pairs, ('{' ∉ lp.1 ∧ '}' ∉ lp.1) ∧ ('{' ∉ lp.2 ∧ '}' ∉ lp.2)) :
    paramizingURI (templateOf pairs) = concatExprOf pairs := by
  obtain ⟨u, hu⟩ := templateOf_eq_snoc pairs hne
  have hmain := bracesToConcat_templateOf pairs h [] hne
  rw [hu, bracesToConcat_append, bracesToConcat_cons_close] at hmain
  rw [hu, paramizingURI_snoc_close]
  have hnil : bracesToConcat [] = [] := rfl
  rw [hnil, List.append_nil] at hmain
  have h2 : ('"' :: bracesToConcat u) ++ ['+', '"'] = concatExprOf pairs ++ ['+', '"'] := by
    simpa using hmain
  exact List.append_cancel_right h2

/-- Witness of C3 at `/users/{userId}/address/{addressId}`. -/
theorem paramizingURI_template_witness :
    templateOf [("/users/".toList, "userId".toList), ("/address/".toList, "addressId".toList)]
        = "/users/{userId}/address/{addressId}".toList
    ∧ paramizingURI "/users/{userId}/address/{addressId}".toList
        = "\"/users/\"+userId+\"/address/\"+addressId".toList :=
  ⟨by decide,
   paramizingURI_template
     [("/users/".toList, "userId".toList), ("/address/".toList, "addressId".toList)]
     (by decide) (by decide)⟩

/-! ## The boundaries of the expression returned by `paramizingURI` -/

theorem hasPrefix_iff (s pre : Str) : hasPrefix s pre = true ↔ pre <+: s := by
  simp only [hasPrefix, beq_iff_eq, List.prefix_iff_eq_take]
  exact eq_comm

theorem stringsReplace_initial (a b : Str) (old : Char) (new : Str) (h : a <+: b) :
    stringsReplace a old new <+: stringsReplace b old new := by
  obtain ⟨t, rfl⟩ := h
  rw [stringsReplace_append]
  exact List.prefix_append _ _

/-- The result of `paramizingURI` is an initial part of the quoted URI with
both brace replacements applied. -/
theorem paramizingURI_initial (URI : Str) :
    paramizingURI URI <+: '"' :: (bracesToConcat URI ++ ['"']) := by
  have h1 : stringsReplace (['"'] ++ URI ++ ['"']) '{' ['"', '+']
      = '"' :: (stringsReplace URI '{' ['"', '+'] ++ ['"']) := by
    simp [stringsReplace_append, stringsReplace_cons, stringsReplace_nil]
  have h3 : stringsReplace ('"' :: (stringsReplace URI '{' ['"', '+'] ++ ['"'])) '}' ['+', '"']
      = '"' :: (bracesToConcat URI ++ ['"']) := by
    simp [stringsReplace_append, stringsReplace_cons, stringsReplace_nil, bracesToConcat]
  unfold paramizingURI
  simp only [h1]
  rw [← h3]
  generalize '"' :: (stringsReplace URI '{' ['"', '+'] ++ ['"']) = s1
  have hs2 : (if hasSuffix s1 ['}', '/', '"'] || hasSuffix s1 ['}', '"']
      then s1.take (s1.length - 1) else s1) <+: s1 := by
    split
    · exact List.take_prefix _ _
    · exact List.prefix_refl _
  generalize (if hasSuffix s1 ['}', '/', '"'] || hasSuffix s1 ['}', '"']
      then s1.take (s1.length - 1) else s1) = s2 at hs2 ⊢
  have hs3 := stringsReplace_initial s2 s1 '}' ['+', '"'] hs2
  refine List.IsPrefix.trans ?_ hs3
  split
  · exact List.take_prefix _ _
  · exact List.prefix_refl _

theorem paramizingURI_no_leading_empty (URI : Str) (hq : '"' ∉ URI)
    (hstart : hasPrefix URI ['{'] = false) :
    hasPrefix (paramizingURI URI) ['"', '"', '+'] = false := by
  rw [Bool.eq_false_iff]
  intro hp
  rw [hasPrefix_iff] at hp
  have h := List.IsPrefix.trans hp (paramizingURI_initial URI)
  cases URI with
  | nil => simp [bracesToConcat, stringsReplace_nil] at h
  | cons c cs =>
    simp only [List.mem_cons, not_or] at hq
    have hc1 : c ≠ '{' := by
      intro e
      subst e
      simp [hasPrefix] at hstart
    have hc2 : c ≠ '"' := fun e => hq.1 e.symm
    by_cases hc3 : c = '}'
    · subst hc3
      simp [bracesToConcat, stringsReplace_cons, List.cons_prefix_cons] at h
    · simp [bracesToConcat, stringsReplace_cons, List.cons_prefix_cons, hc1, hc3,
        Ne.symm hc2] at h

theorem bracesToConcat_snoc (u : Str) (d : Char) :
    bracesToConcat (u ++ [d])
      = bracesToConcat u
        ++ (if d = '{' then ['"', '+'] else if d = '}' then ['+', '"'] else [d]) := by
  rw [bracesToConcat_append]
  by_cases h1 : d = '{'
  · subst h1
    simp [bracesToConcat, stringsReplace_cons, stringsReplace_nil]
  · by_cases h2 : d = '}'
    · subst h2
      simp [bracesToConcat, stringsReplace_cons, stringsReplace_nil]
    · simp [bracesToConcat, stringsReplace_cons, stringsReplace_nil, h1, h2]

theorem no_trailing_empty_bare (u : Str) (hq : '"' ∉ u) :
    hasSuffix ('"' :: bracesToConcat u) ['+', '"', '"'] = false := by
  rcases eq_nil_or_snoc u with hnil | ⟨v, d, hv⟩
  · subst hnil
    decide
  · subst hv
    have hd : d ≠ '"' := by
      intro e
      subst e
      simp at hq
    rw [bracesToConcat_snoc]
    by_cases h1 : d = '{'
    · subst h1
      simp [hasSuffix_eq_isPrefixOf_reverse, List.isPrefixOf_cons₂]
    · by_cases h2 : d = '}'
      · subst h2
        simp [hasSuffix_eq_isPrefixOf_reverse, List.isPrefixOf_cons₂]
      · simp [hasSuffix_eq_isPrefixOf_reverse, List.isPrefixOf_cons₂, h1, h2, Ne.symm hd]

theorem no_trailing_empty_quoted (u : Str) (hq : '"' ∉ u) (hend : hasSuffix u ['}'] = false) :
    hasSuffix ('"' :: bracesToConcat u ++ ['"']) ['+', '"', '"'] = false := by
  rcases eq_nil_or_snoc u with hnil | ⟨v, d, hv⟩
  · subst hnil
    decide
  · subst hv
    have hd : d ≠ '"' := by
      intro e
      subst e
      simp at hq
    have hd2 : d ≠ '}' := by
      intro e
      subst e
      simp [hasSuffix_eq_isPrefixOf_reverse] at hend
    rw [bracesToConcat_snoc]
    by_cases h1 : d = '{'
    · subst h1
      simp [hasSuffix_eq_isPrefixOf_reverse, List.isPrefixOf_cons₂]
    · simp [hasSuffix_eq_isPrefixOf_reverse, List.isPrefixOf_cons₂, h1, hd2, Ne.symm hd]

theorem paramizingURI_no_trailing_empty (URI : Str) (hq : '"' ∉ URI)
    (hend : hasSuffix URI ['}', '{'] = false) :
    hasSuffix (paramizingURI URI) ['+', '"', '"'] = false := by
  rcases eq_nil_or_snoc URI with hnil | ⟨u, c, hu⟩
  · subst hnil
    decide
  · subst hu
    have hqu : '"' ∉ u := fun hm => hq (List.mem_append_left _ hm)
    have hc : c ≠ '"' := by
      intro e
      subst e
      simp at hq
    by_cases h1 : c = '}'
    · subst h1
      rw [paramizingURI_snoc_close]
      exact no_trailing_empty_bare u hqu
    by_cases h2 : c = '{'
    · subst h2
      rw [paramizingURI_snoc_open]
      refine no_trailing_empty_quoted u hqu ?_
      simpa [hasSuffix_eq_isPrefixOf_reverse, List.isPrefixOf_cons₂] using hend
    by_cases h3 : c = '+'
    · subst h3
      rw [paramizingURI_snoc_plus]
      exact no_trailing_empty_bare u hqu
    by_cases h4 : c = '/' ∧ hasSuffix u ['}'] = true
    · obtain ⟨h4a, h4b⟩ := h4
      subst h4a
      rcases eq_nil_or_snoc u with hnil | ⟨v, d, hv⟩
      · subst hnil
        simp [hasSuffix] at h4b
      · subst hv
        have hd : '}' = d := by
          simpa [hasSuffix_eq_isPrefixOf_reverse, List.isPrefixOf_cons₂] using h4b
        subst hd
        have hform : v ++ ['}'] ++ ['/'] = v ++ ['}', '/'] := by simp
        rw [hform, paramizingURI_snoc_close_slash]
        simp [hasSuffix_eq_isPrefixOf_reverse, List.isPrefixOf_cons₂]
    · have hslash : c = '/' → hasSuffix u ['}'] = false := by
        intro e
        by_contra hne
        exact h4 ⟨e, by simpa using hne⟩
      rw [paramizingURI_snoc_plain u c h1 h2 h3 hslash]
      simp [hasSuffix_eq_isPrefixOf_reverse, List.isPrefixOf_cons₂, Ne.symm hc]

/-- C4, counterexample: a placeholder at the very start of the template is
not collapsed, `{id}` gives an expression that starts with the empty literal
followed by `+`. -/
theorem paramizingURI_leading_placeholder :
    paramizingURI "{id}".toList = "\"\"+id".toList
    ∧ hasPrefix (paramizingURI "{id}".toList) "\"\"+".toList = true := by
  decide

/-- C4, amended: for every template URI that contains no double quote, the
expression returned by `paramizingURI` does not end with `+` followed by the
empty literal unless the URI ends with the two characters `}{` (so a
placeholder at the very end is collapsed), and it does not start with the
empty literal followed by `+` provided the URI does not begin with `{`. -/
theorem paramizingURI_boundaries (URI : Str) (hq : '"' ∉ URI) :
    (hasPrefix URI ['{'] = false → hasPrefix (paramizingURI URI) ['"', '"', '+'] = false)
    ∧ (hasSuffix URI ['}', '{'] = false
        → hasSuffix (paramizingURI URI) ['+', '"', '"'] = false) :=
  ⟨paramizingURI_no_leading_empty URI hq, paramizingURI_no_trailing_empty URI hq⟩

/-- Witness of the amended C4 at `/users/{userId}`, whose placeholder ends
the template. -/
theorem paramizingURI_boundaries_witness :
    '"' ∉ "/users/{userId}".toList
    ∧ hasPrefix (paramizingURI "/users/{userId}".toList) ['"', '"', '+'] = false
    ∧ hasSuffix (paramizingURI "/users/{userId}".toList) ['+', '"', '"'] = false :=
  ⟨by decide,
   (paramizingURI_boundaries "/users/{userId}".toList (by decide)).1 (by decide),
   (paramizingURI_boundaries "/users/{userId}".toList (by decide)).2 (by decide)⟩

theorem PathSeg.valid_iff (s : PathSeg) :
    s.valid = true ↔ s.name ≠ [] ∧ ∀ c ∈ s.name, c.isAlphanum = true := by
  simp [PathSeg.valid]

/-! ## Method names derived from the resource path -/

theorem alnum_not_special (c : Char) (h : c.isAlphanum = true) :
    c ≠ '/' ∧ c ≠ '{' ∧ c ≠ '}' ∧ c ≠ ' ' := by
  refine ⟨?_, ?_, ?_, ?_⟩ <;>
  · intro e
    subst e
    exact absurd h (by decide)

theorem normalizeURI_of_alnum (name : Str) (h : ∀ c ∈ name, c.isAlphanum = true) :
    normalizeURI name = name := by
  have h1 : '/' ∉ name := fun hm => (alnum_not_special _ (h _ hm)).1 rfl
  have h2 : '{' ∉ name := fun hm => (alnum_not_special _ (h _ hm)).2.1 rfl
  have h3 : '}' ∉ name := fun hm => (alnum_not_special _ (h _ hm)).2.2.1 rfl
  have h4 : ' ' ∉ name := fun hm => (alnum_not_special _ (h _ hm)).2.2.2 rfl
  unfold normalizeURI doNormalizeURI
  simp only [stringsReplace_of_not_mem _ _ _ h1, stringsReplace_of_not_mem _ _ _ h2,
    stringsReplace_of_not_mem _ _ _ h3, stringsReplace_of_not_mem _ _ _ h4]

theorem normalizeURI_append (a b : Str) :
    normalizeURI (a ++ b) = normalizeURI a ++ normalizeURI b := by
  simp [normalizeURI, doNormalizeURI, stringsReplace_append]

theorem normalizeURI_segment (s : PathSeg) (h : s.valid = true) :
    normalizeURI s.uri = s.name := by
  have hn := normalizeURI_of_alnum s.name ((PathSeg.valid_iff s).mp h).2
  cases s with
  | lit n =>
    have e : PathSeg.uri (.lit n) = ['/'] ++ n := rfl
    rw [e, normalizeURI_append]
    simpa [PathSeg.name] using hn
  | param n =>
    have e : PathSeg.uri (.param n) = ['/', '{'] ++ n ++ ['}'] := by simp [PathSeg.uri]
    rw [e, normalizeURI_append, normalizeURI_append]
    have e1 : normalizeURI ['/', '{'] = [] := by decide
    have e2 : normalizeURI ['}'] = [] := by decide
    rw [e1, e2]
    simpa [PathSeg.name] using hn

theorem snakeCaseStep_segment (s : PathSeg) (h : s.valid = true) (hasParent : Bool)
    (completeURI : Str) (next : Str → Option Str) :
    snakeCaseStep s.uri hasParent completeURI next
      = next ((if hasParent then ['_'] else []) ++ s.frag ++ completeURI) := by
  have hnorm := normalizeURI_segment s h
  obtain ⟨hne, hal⟩ := (PathSeg.valid_iff s).mp h
  have hlen : s.uri.length > 0 := by
    cases s <;> simp [PathSeg.uri]
  unfold snakeCaseStep
  rw [if_pos hlen]
  simp only [hnorm]
  cases s with
  | lit n =>
    cases n with
    | nil => exact absurd rfl hne
    | cons n0 rest =>
      have hn0 : n0 ≠ '{' := (alnum_not_special n0 (hal n0 (List.mem_cons_self _ _))).2.1
      have hpre : hasPrefix (PathSeg.uri (.lit (n0 :: rest))) ['/', '{'] = false := by
        simp [hasPrefix, PathSeg.uri, hn0]
      simp only [PathSeg.name, hpre]
      cases rest with
      | nil => simp [PathSeg.frag, lowerFirst, stringsToLower]
      | cons n1 rest2 => simp [PathSeg.frag, lowerFirst, stringsToLower]
  | param n =>
    cases n with
    | nil => exact absurd rfl hne
    | cons n0 rest =>
      have hpre : hasPrefix (PathSeg.uri (.param (n0 :: rest))) ['/', '{'] = true := by
        simp [hasPrefix, PathSeg.uri]
      simp only [PathSeg.name, hpre]
      cases rest with
      | nil => simp [PathSeg.frag, upperFirst, stringsToUpper]
      | cons n1 rest2 => simp [PathSeg.frag, upperFirst, stringsToUpper]

theorem stringsJoin_snoc (xs : List Str) (x sep : Str) (hne : xs ≠ []) :
    stringsJoin (xs ++ [x]) sep = stringsJoin xs sep ++ sep ++ x := by
  induction xs with
  | nil => exact absurd rfl hne
  | cons a rest ih =>
    cases rest with
    | nil => simp [stringsJoin_cons_cons, stringsJoin_singleton]
    | cons b rest2 =>
      have ih2 := ih (by simp)
      simp only [List.cons_append] at ih2 ⊢
      rw [stringsJoin_cons_cons, ih2, stringsJoin_cons_cons]
      simp

theorem Resource.path_ne_nil (r : Resource) : r.path ≠ [] := by
  cases r <;> simp [Resource.path]

theorem snakeCaseRec_segments (r : Resource) :
    ∀ (segs : List PathSeg) (completeURI : Str),
      r.path = segs.map PathSeg.uri → (∀ s ∈ segs, s.valid = true) →
      snakeCaseRec r completeURI
        = some (stringsJoin (segs.map PathSeg.frag) ['_'] ++ completeURI) := by
  induction r with
  | root u =>
    intro segs completeURI hpath hvalid
    match segs, hpath, hvalid with
    | [s], hpath, hvalid =>
      have hu : u = s.uri := by simpa [Resource.path] using hpath
      subst hu
      rw [snakeCaseRec, snakeCaseStep_segment s (hvalid s (List.mem_singleton_self _))]
      simp [stringsJoin_singleton]
    | [], hpath, _ => simp [Resource.path] at hpath
    | _ :: _ :: _, hpath, _ => simp [Resource.path] at hpath
  | child u p ih =>
    intro segs completeURI hpath hvalid
    rcases eq_nil_or_snoc segs with hnil | ⟨init, s, hs⟩
    · subst hnil
      simp [Resource.path] at hpath
    · subst hs
      have hpath2 : p.path ++ [u] = init.map PathSeg.uri ++ [s.uri] := by
        simpa [Resource.path] using hpath
      have hsplit := List.append_inj' hpath2 rfl
      have hu : u = s.uri := by simpa using hsplit.2
      subst hu
      have hinit : init ≠ [] := by
        intro e
        subst e
        exact Resource.path_ne_nil p (by simpa using hsplit.1)
      have hs_valid := hvalid s (by simp)
      have hinit_valid : ∀ t ∈ init, t.valid = true :=
        fun t ht => hvalid t (List.mem_append_left _ ht)
      rw [snakeCaseRec, snakeCaseStep_segment s hs_valid, ih init _ hsplit.1 hinit_valid]
      have hmap : (init ++ [s]).map PathSeg.frag = init.map PathSeg.frag ++ [s.frag] := by
        simp
      rw [hmap, stringsJoin_snoc _ _ _ (by simpa using hinit)]
      simp

/-- C5: for every python method with an empty display name on a resource
whose parent chain, root first, has the segments `s1..sn`, each `/name` or
`/{name}` with a non-empty ASCII alphanumeric name, `setup` returns and the
derived method name is `frag(s1)_frag(s2)_..._frag(sn)_lowercase(verb)`. -/
theorem setup_methodName_derived {M : Type} (validateSecurityScheme : Str → Bool)
    (newPythonOauth2Middleware : DefinitionChoice → Except Str M)
    (pm : pythonServerMethod M) (pcm : pythonClientMethod)
    (r : Resource) (segs : List PathSeg)
    (hpath : r.path = segs.map PathSeg.uri) (hvalid : ∀ s ∈ segs, s.valid = true) :
    (pm.base.DisplayName = [] →
      ∃ res, pythonServerMethod.setup validateSecurityScheme newPythonOauth2Middleware pm
            (some r) = some res
        ∧ res.1.base.MethodName
          = stringsJoin (segs.map PathSeg.frag) ['_'] ++ ['_'] ++ stringsToLower pm.base.Verb)
    ∧ (pcm.base.DisplayName = [] → pcm.base.Resource = some r →
      ∃ res, pythonClientMethod.setup pcm = some res
        ∧ res.base.MethodName
          = stringsJoin (segs.map PathSeg.frag) ['_'] ++ ['_']
              ++ stringsToLower pcm.base.Verb) := by
  have hsnake : snakeCaseResourceURI (some r)
      = some (stringsJoin (segs.map PathSeg.frag) ['_']) := by
    simpa [snakeCaseResourceURI, _snakeCaseResourceURI] using
      snakeCaseRec_segments r segs [] hpath hvalid
  constructor
  · intro hd
    simp [pythonServerMethod.setup, setupMethodName, hd, hsnake]
  · intro hd hr
    simp [pythonClientMethod.setup, setupMethodName, hd, hr, hsnake]

/-- Witness of C5: root `/users` with child `/{userId}`, verb `GET`, gives
`users_byUserId_get`. -/
theorem setup_methodName_derived_witness :
    (∃ res, pythonServerMethod.setup (fun _ => false) (fun _ => Except.ok ())
          { base := { Verb := "GET".toList } }
          (some (Resource.child "/{userId}".toList (Resource.root "/users".toList)))
        = some res
      ∧ res.1.base.MethodName = "users_byUserId_get".toList)
    ∧ (∃ res, pythonClientMethod.setup
          { base := { Verb := "GET".toList,
                      Resource := some (Resource.child "/{userId}".toList
                        (Resource.root "/users".toList)) } }
        = some res
      ∧ res.base.MethodName = "users_byUserId_get".toList) :=
  ⟨(@setup_methodName_derived Unit (fun _ => false) (fun _ => Except.ok ())
      { base := { Verb := "GET".toList } }
      { base := { Verb := "GET".toList,
                  Resource := some (Resource.child "/{userId}".toList
                    (Resource.root "/users".toList)) } }
      (Resource.child "/{userId}".toList (Resource.root "/users".toList))
      [PathSeg.lit "users".toList, PathSeg.param "userId".toList]
      (by decide) (by decide)).1 (by decide),
   (@setup_methodName_derived Unit (fun _ => false) (fun _ => Except.ok ())
      { base := { Verb := "GET".toList } }
      { base := { Verb := "GET".toList,
                  Resource := some (Resource.child "/{userId}".toList
                    (Resource.root "/users".toList)) } }
      (Resource.child "/{userId}".toList (Resource.root "/users".toList))
      [PathSeg.lit "users".toList, PathSeg.param "userId".toList]
      (by decide) (by decide)).2 (by decide) (by decide)⟩

/-! ## The extracted parameters of templates -/

theorem findAllFrom_none_of_no_open (text rest : Str) (h : '{' ∉ text) :
    findAllFrom none (text ++ rest) = findAllFrom none rest := by
  induction text with
  | nil => rfl
  | cons c cs ih =>
    simp only [List.mem_cons, not_or] at h
    have hc : ¬ c = '{' := fun e => h.1 e.symm
    simp only [List.cons_append, findAllFrom, hc, if_false]
    exact ih h.2

theorem findAllFrom_some_run (name : Str) (hall : ∀ c ∈ name, isParamChar c = true) :
    ∀ (acc rest : Str), (acc ≠ [] ∨ name ≠ []) →
      findAllFrom (some acc) (name ++ '}' :: rest)
        = ('{' :: (acc.reverse ++ name ++ ['}'])) :: findAllFrom none rest := by
  induction name with
  | nil =>
    intro acc rest hne
    have hacc : acc ≠ [] := by
      rcases hne with h | h
      · exact h
      · exact absurd rfl h
    have hp : isParamChar '}' = false := by decide
    simp [findAllFrom, hp, hacc]
  | cons c cs ih =>
    intro acc rest _
    have hc : isParamChar c = true := hall c (List.mem_cons_self _ _)
    have hcs : ∀ d ∈ cs, isParamChar d = true := fun d hd => hall d (List.mem_cons_of_mem _ hd)
    simp only [List.cons_append, findAllFrom, hc, if_true, List.append_eq]
    rw [ih hcs (c :: acc) rest (Or.inl (by simp))]
    simp

theorem regexFindAllString_template (t : List Piece) (hwf : ∀ pc ∈ t, pc.wellFormed = true) :
    regexFindAllString (renderTemplate t)
      = (templateNames t).map (fun name => '{' :: (name ++ ['}'])) := by
  unfold regexFindAllString
  induction t with
  | nil => rfl
  | cons pc rest ih =>
    have hpc := hwf pc (List.mem_cons_self _ _)
    have ih2 := ih (fun q hq => hwf q (List.mem_cons_of_mem _ hq))
    cases pc with
    | lit text =>
      have hno : '{' ∉ text := by simpa [Piece.wellFormed] using hpc
      simp only [renderTemplate, Piece.render, templateNames]
      rw [findAllFrom_none_of_no_open _ _ hno]
      exact ih2
    | param name =>
      have hname : name ≠ [] ∧ ∀ c ∈ name, isParamChar c = true := by
        simpa [Piece.wellFormed] using hpc
      simp only [renderTemplate, Piece.render, templateNames, List.map_cons,
        List.cons_append, List.append_assoc, List.singleton_append]
      rw [findAllFrom]
      simp only [if_true]
      rw [findAllFrom_some_run name hname.2 [] _ (Or.inr hname.1)]
      simp [ih2]

theorem appendMatches_eq (params matches_ : List Str) :
    appendMatches params matches_
      = params ++ matches_.map (fun v => (v.take (v.length - 1)).drop 1) := by
  unfold appendMatches
  induction matches_ generalizing params with
  | nil => simp
  | cons v vs ih =>
    simp only [List.foldl_cons, List.map_cons]
    rw [ih]
    simp

theorem appendMatches_template (params : List Str) (t : List Piece)
    (hwf : ∀ pc ∈ t, pc.wellFormed = true) :
    appendMatches params (regexFindAllString (renderTemplate t))
      = params ++ templateNames t := by
  rw [appendMatches_eq, regexFindAllString_template t hwf, List.map_map]
  congr 1
  have hid : ∀ name : Str,
      ((fun v : Str => (v.take (v.length - 1)).drop 1) ∘ fun name => '{' :: (name ++ ['}'])) name
        = name := by
    intro name
    simp
  rw [List.map_congr_left (fun name _ => hid name)]
  simp

theorem getResourceParamsRec_perm (r : Resource) :
    ∀ (ts : List (List Piece)) (params : List Str),
      r.path = ts.map renderTemplate → (∀ t ∈ ts, ∀ pc ∈ t, pc.wellFormed = true) →
      (getResourceParamsRec r params).Perm (params ++ (ts.map templateNames).flatten) := by
  induction r with
  | root u =>
    intro ts params hpath hwf
    match ts, hpath, hwf with
    | [t], hpath, hwf =>
      have hu : u = renderTemplate t := by simpa [Resource.path] using hpath
      subst hu
      rw [getResourceParamsRec, appendMatches_template _ _ (hwf t (List.mem_singleton_self _))]
      simp
    | [], hpath, _ => simp [Resource.path] at hpath
    | _ :: _ :: _, hpath, _ => simp [Resource.path] at hpath
  | child u p ih =>
    intro ts params hpath hwf
    rcases eq_nil_or_snoc ts with hnil | ⟨init, t, hts⟩
    · subst hnil
      simp [Resource.path] at hpath
    · subst hts
      have hpath2 : p.path ++ [u] = init.map renderTemplate ++ [renderTemplate t] := by
        simpa [Resource.path] using hpath
      have hsplit := List.append_inj' hpath2 rfl
      have hu : u = renderTemplate t := by simpa using hsplit.2
      subst hu
      have ht := hwf t (by simp)
      have hinit : ∀ q ∈ init, ∀ pc ∈ q, pc.wellFormed = true :=
        fun q hq => hwf q (List.mem_append_left _ hq)
      rw [getResourceParamsRec, appendMatches_template _ _ ht]
      refine (ih init _ hsplit.1 hinit).trans ?_
      simp only [List.map_append, List.map_cons, List.map_nil, List.flatten_append,
        List.flatten_cons, List.flatten_nil, List.append_nil, List.append_assoc]
      exact List.Perm.append_left _ List.perm_append_comm

theorem templateNames_no_brace (t : List Piece) (hwf : ∀ pc ∈ t, pc.wellFormed = true) :
    ∀ name ∈ templateNames t, '{' ∉ name ∧ '}' ∉ name := by
  induction t with
  | nil => simp [templateNames]
  | cons pc rest ih =>
    have ih2 := ih (fun q hq => hwf q (List.mem_cons_of_mem _ hq))
    have hpc := hwf pc (List.mem_cons_self _ _)
    cases pc with
    | lit text => simpa [templateNames] using ih2
    | param name =>
      have hname : name ≠ [] ∧ ∀ c ∈ name, isParamChar c = true := by
        simpa [Piece.wellFormed] using hpc
      intro n hn
      simp only [templateNames, List.mem_cons] at hn
      rcases hn with e | hn
      · subst e
        constructor
        · intro hm
          exact absurd (hname.2 _ hm) (by decide)
        · intro hm
          exact absurd (hname.2 _ hm) (by decide)
      · exact ih2 n hn

/-- C2, counterexample: the chain of the single resource `/users/{user-id}`
contains one placeholder `{user-id}`, and `getResourceParams` returns no
string at all: the pattern only accepts names made of letters, digits,
underscore and white space. -/
theorem getResourceParams_hyphen_name :
    getResourceParams (some (Resource.root "/users/{user-id}".toList)) = [] := by
  decide

/-- C2, amended: for every resource whose URI segments are templates of
literal text without `{` and placeholders `{name}` with a non-empty name of
letters, digits, underscore and white space, `k` placeholders in total,
`getResourceParams` returns exactly `k` strings, these strings are exactly
the placeholder names with the braces stripped (no returned string contains
a brace), and a segment with zero placeholders contributes no element. -/
theorem getResourceParams_of_templates (r : Resource) (ts : List (List Piece))
    (hpath : r.path = ts.map renderTemplate)
    (hwf : ∀ t ∈ ts, ∀ pc ∈ t, pc.wellFormed = true) :
    (getResourceParams (some r)).Perm (ts.map templateNames).flatten
    ∧ (getResourceParams (some r)).length = (ts.map (fun t => (templateNames t).length)).sum
    ∧ (∀ s ∈ getResourceParams (some r), '{' ∉ s ∧ '}' ∉ s)
    ∧ (∀ t ∈ ts, templateNames t = [] → ∀ params : List Str,
        appendMatches params (regexFindAllString (renderTemplate t)) = params) := by
  have hperm : (getResourceParams (some r)).Perm (ts.map templateNames).flatten := by
    simpa [getResourceParams, _getResourceParams] using
      getResourceParamsRec_perm r ts [] hpath hwf
  refine ⟨hperm, ?_, ?_, ?_⟩
  · rw [hperm.length_eq, List.length_flatten, List.map_map]
    rfl
  · intro s hs
    have hs2 : s ∈ (ts.map templateNames).flatten := hperm.mem_iff.mp hs
    obtain ⟨l, hl, hsl⟩ := List.mem_flatten.mp hs2
    obtain ⟨t, ht, rfl⟩ := List.mem_map.mp hl
    exact templateNames_no_brace t (hwf t ht) s hsl
  · intro t ht hzero params
    rw [appendMatches_template _ _ (hwf t ht), hzero, List.append_nil]

/-- Witness of the amended C2: root `/users`, child `/{userId}`, grandchild
`/address/{addressId}`. -/
theorem getResourceParams_of_templates_witness :
    (getResourceParams (some (Resource.child "/address/{addressId}".toList
        (Resource.child "/{userId}".toList (Resource.root "/users".toList))))).Perm
      ["userId".toList, "addressId".toList]
    ∧ (getResourceParams (some (Resource.child "/address/{addressId}".toList
        (Resource.child "/{userId}".toList (Resource.root "/users".toList))))).length = 2 :=
  ⟨(getResourceParams_of_templates
      (Resource.child "/address/{addressId}".toList
        (Resource.child "/{userId}".toList (Resource.root "/users".toList)))
      [[Piece.lit "/users".toList],
       [Piece.lit "/".toList, Piece.param "userId".toList],
       [Piece.lit "/address/".toList, Piece.param "addressId".toList]]
      (by decide) (by decide)).1,
   (getResourceParams_of_templates
      (Resource.child "/address/{addressId}".toList
        (Resource.child "/{userId}".toList (Resource.root "/users".toList)))
      [[Piece.lit "/users".toList],
       [Piece.lit "/".toList, Piece.param "userId".toList],
       [Piece.lit "/address/".toList, Piece.param "addressId".toList]]
      (by decide) (by decide)).2.1⟩

/-! ## Import path of a declared library -/

/-- C9, counterexample: with `Uses = {my_lib: libs/my_lib.raml}` the type
`my_lib.Foo` does not resolve: the alias is looked up as `my-lib`, which the
document does not declare, and the call ends in `log.Fatalf`. -/
theorem libImportPath_underscore_alias :
    libImportPath { Uses := [("my_lib".toList, "libs/my_lib.raml".toList)] }
        "example.com/api".toList "my_lib.Foo".toList = none
    ∧ GoMap.get [("my_lib".toList, "libs/my_lib.raml".toList)] "my_lib".toList
        = some "libs/my_lib.raml".toList := by
  decide

/-- C9, amended: for every root import path `r`, every alias `a` without a
dot other than the reserved `goraml`, every root document whose `Uses` maps
`denormalizePkgName a` (`a` itself when it has no underscore) to a non-empty
library file path `p`, and every bare name `n`, `libImportPath r (a.n)`
returns `r` joined with `normalizePkgName` of `p` with its file extension
stripped. -/
theorem libImportPath_of_uses (apiDef : APIDefinition) (r a p n : Str)
    (hdot : '.' ∉ a) (hreserved : a ≠ "goraml".toList)
    (huses : apiDef.Uses.get (denormalizePkgName a) = some p) (hp : p ≠ []) :
    libImportPath apiDef r (a ++ '.' :: n)
      = some (filepathJoin [r, normalizePkgName (libRelDir p)]) := by
  have hsplit : stringsSplit (a ++ '.' :: n) '.' = a :: stringsSplit n '.' :=
    stringsSplit_append_sep _ _ _ hdot
  have hidx : ¬ stringsIndex (a ++ '.' :: n) '.' < 0 :=
    stringsIndex_nonneg_of_mem _ _ (by simp)
  have hfind : apiDef.FindLibFile (denormalizePkgName a) = p := by
    simp [APIDefinition.FindLibFile, huses]
  unfold libImportPath
  rw [if_neg hidx, hsplit]
  simp only [hreserved, if_false, hfind, hp]

/-- Witness of the amended C9: `Uses = {common: libs/common.raml}` and the
type `common.Foo` give `r/libs/common`. -/
theorem libImportPath_of_uses_witness :
    libImportPath { Uses := [("common".toList, "libs/common.raml".toList)] }
        "example.com/api".toList "common.Foo".toList
      = some "example.com/api/libs/common".toList :=
  libImportPath_of_uses { Uses := [("common".toList, "libs/common.raml".toList)] }
    "example.com/api".toList "common".toList "libs/common.raml".toList "Foo".toList
    (by decide) (by decide) (by decide) (by decide)

/-! ## Normalized package names -/

theorem stringsReplace_char_eq_map (s : Str) (old new : Char) :
    stringsReplace s old [new] = s.map (fun c => if c = old then new else c) := by
  induction s with
  | nil => rfl
  | cons c cs ih =>
    by_cases hc : c = old
    · simp [stringsReplace_cons, hc, ih]
    · simp [stringsReplace_cons, hc, ih]

/-- C19: for every string `name`, `normalizePkgName name` contains no hyphen,
has the same length as `name`, equals `name` with every `-` replaced by `_`
and every other character unchanged, and normalizing it again changes
nothing. -/
theorem normalizePkgName_spec (name : Str) :
    '-' ∉ normalizePkgName name
    ∧ (normalizePkgName name).length = name.length
    ∧ normalizePkgName name = name.map (fun c => if c = '-' then '_' else c)
    ∧ normalizePkgName (normalizePkgName name) = normalizePkgName name := by
  have hno : '-' ∉ normalizePkgName name :=
    not_mem_stringsReplace name '-' ['_'] (by decide)
  refine ⟨hno, stringsReplace_length_one name '-' '_', ?_, ?_⟩
  · exact stringsReplace_char_eq_map name '-' '_'
  · exact stringsReplace_of_not_mem _ _ _ hno

/-! ## A literal after the last placeholder -/

/-- C18, the code on the example `/users/{userId}/`: the closing quote of
the last literal is removed, the returned expression is
`"/users/"+userId+"/` with three double quotes, not
`"/users/"+userId+"/"`.  A literal suffix that ends with `+` loses its last
two characters in the same way. -/
theorem paramizingURI_trailing_slash_unbalanced :
    paramizingURI "/users/{userId}/".toList = "\"/users/\"+userId+\"/".toList
    ∧ (paramizingURI "/users/{userId}/".toList).count '"' = 3
    ∧ paramizingURI "/users/{userId}/".toList ≠ "\"/users/\"+userId+\"/\"".toList
    ∧ paramizingURI "/tags/{tag}/c++".toList = "\"/tags/\"+tag+\"/c+".toList := by
  decide

/-! ## The output directory of a library -/

/-- C15, the code on the base directory `my-out` and the library file
`libs/common.raml`: the hyphen of the base directory is replaced as well, the
directory is `my_out/libs/common` and not `my-out/libs/common`. -/
theorem newGoLibrary_normalizes_baseDir :
    (newGoLibrary (Library.mk "libs/common.raml".toList [] [] []) "my-out".toList).dir
      = "my_out/libs/common".toList
    ∧ filepathJoin ["my-out".toList, normalizePkgName (libRelDir "libs/common.raml".toList)]
      = "my-out/libs/common".toList := by
  decide

/-! ## Conversion of a value to a string -/

theorem interfaceToStringLoop_strings (xs : List Str) (resultStr : Str) :
    interfaceToStringLoop (xs.map GoValue.str) resultStr
      = some (resultStr ++ (xs.map (fun x => x ++ [','])).flatten) := by
  induction xs generalizing resultStr with
  | nil => simp [interfaceToStringLoop]
  | cons x rest ih =>
    simp only [List.map_cons, interfaceToStringLoop, interfaceToString, ih]
    simp

theorem flatten_commas_eq (xs : List Str) (hne : xs ≠ []) :
    (xs.map (fun x => x ++ [','])).flatten = stringsJoin xs [','] ++ [','] := by
  induction xs with
  | nil => exact absurd rfl hne
  | cons x rest ih =>
    cases rest with
    | nil => simp [stringsJoin_singleton]
    | cons y rest2 =>
      have ih2 := ih (by simp)
      rw [stringsJoin_cons_cons, List.map_cons, List.flatten_cons, ih2]
      simp

/-- A non-empty slice of strings is converted to its elements joined by
commas; a string is returned as it is, any other value gives the empty
string. -/
theorem interfaceToString_strings (xs : List Str) (hne : xs ≠ []) :
    interfaceToString (GoValue.slice (xs.map GoValue.str)) = some (stringsJoin xs [','])
    ∧ (∀ s, interfaceToString (GoValue.str s) = some s)
    ∧ interfaceToString GoValue.other = some [] := by
  refine ⟨?_, fun s => by simp [interfaceToString], by simp [interfaceToString]⟩
  rw [interfaceToString, interfaceToStringLoop_strings, List.nil_append,
    flatten_commas_eq xs hne]
  simp

/-- C20, the code on the empty slice: `interfaceToString` does not return, it
fails in `resultStr[:len(resultStr)-1]` on the empty `resultStr`. -/
theorem interfaceToString_empty_slice_panics :
    interfaceToString (GoValue.slice []) = none := by
  decide

/-! ## Library files: the local document first, then one level of libraries -/

theorem findInLibraries_found (name : Str) (libs : List (Str × Library))
    (h : ∃ e ∈ libs, e.2.Uses.get name ≠ none) :
    ∃ e ∈ libs, e.2.Uses.get name = some (findInLibraries name libs) := by
  induction libs with
  | nil =>
    obtain ⟨e, he, _⟩ := h
    simp at he
  | cons e rest ih =>
    obtain ⟨a, lib⟩ := e
    cases hget : lib.Uses.get name with
    | some filename =>
      refine ⟨(a, lib), List.mem_cons_self _ _, ?_⟩
      simp [findInLibraries, hget]
    | none =>
      have hrest : ∃ e ∈ rest, e.2.Uses.get name ≠ none := by
        obtain ⟨e, he, hne⟩ := h
        rcases List.mem_cons.mp he with heq | hmem
        · subst heq
          exact absurd hget hne
        · exact ⟨e, hmem, hne⟩
      obtain ⟨e, he, hfound⟩ := ih hrest
      refine ⟨e, List.mem_cons_of_mem _ he, ?_⟩
      simpa [findInLibraries, hget] using hfound

theorem findInLibraries_none (name : Str) (libs : List (Str × Library))
    (h : ∀ e ∈ libs, e.2.Uses.get name = none) :
    findInLibraries name libs = [] := by
  induction libs with
  | nil => rfl
  | cons e rest ih =>
    obtain ⟨a, lib⟩ := e
    have hhead : lib.Uses.get name = none := h (a, lib) (List.mem_cons_self _ _)
    simp only [findInLibraries, hhead]
    exact ih (fun e he => h e (List.mem_cons_of_mem _ he))

/-- C11: `FindLibFile name` returns the file path of the document's own
`Uses` when `name` is one of its keys, whatever the libraries declare;
otherwise the file path that some directly loaded library declares for `name`
in its own `Uses`, when there is such a library; otherwise the empty string,
whatever the libraries of the loaded libraries declare. -/
theorem FindLibFile_spec (apiDef : APIDefinition) (name : Str) :
    (∀ filename, apiDef.Uses.get name = some filename →
        apiDef.FindLibFile name = filename)
    ∧ (apiDef.Uses.get name = none →
        (∃ e ∈ apiDef.Libraries, e.2.Uses.get name ≠ none) →
        ∃ e ∈ apiDef.Libraries, e.2.Uses.get name = some (apiDef.FindLibFile name))
    ∧ (apiDef.Uses.get name = none →
        (∀ e ∈ apiDef.Libraries, e.2.Uses.get name = none) →
        apiDef.FindLibFile name = []) := by
  refine ⟨?_, ?_, ?_⟩
  · intro filename h
    simp [APIDefinition.FindLibFile, h]
  · intro h hlib
    simpa [APIDefinition.FindLibFile, h] using findInLibraries_found name _ hlib
  · intro h hlib
    simpa [APIDefinition.FindLibFile, h] using findInLibraries_none name _ hlib

/-- Witness of C11: the document declares `common`, the loaded library `a`
declares `base`, and the library `b` loaded by `a` declares `deep`: `common`
resolves in the document, `base` one level down, `deep` not at all. -/
theorem FindLibFile_spec_witness :
    APIDefinition.FindLibFile
        { Uses := [("common".toList, "libs/common.raml".toList)],
          Libraries := [("a".toList,
            Library.mk "a.raml".toList [("base".toList, "libs/base.raml".toList)] []
              [("b".toList,
                Library.mk "b.raml".toList [("deep".toList, "libs/deep.raml".toList)] [] [])])] }
        "common".toList = "libs/common.raml".toList
    ∧ APIDefinition.FindLibFile
        { Uses := [("common".toList, "libs/common.raml".toList)],
          Libraries := [("a".toList,
            Library.mk "a.raml".toList [("base".toList, "libs/base.raml".toList)] []
              [("b".toList,
                Library.mk "b.raml".toList [("deep".toList, "libs/deep.raml".toList)] [] [])])] }
        "deep".toList = [] :=
  ⟨(FindLibFile_spec
      { Uses := [("common".toList, "libs/common.raml".toList)],
        Libraries := [("a".toList,
          Library.mk "a.raml".toList [("base".toList, "libs/base.raml".toList)] []
            [("b".toList,
              Library.mk "b.raml".toList [("deep".toList, "libs/deep.raml".toList)] [] [])])] }
      "common".toList).1 "libs/common.raml".toList (by decide),
   (FindLibFile_spec
      { Uses := [("common".toList, "libs/common.raml".toList)],
        Libraries := [("a".toList,
          Library.mk "a.raml".toList [("base".toList, "libs/base.raml".toList)] []
            [("b".toList,
              Library.mk "b.raml".toList [("deep".toList, "libs/deep.raml".toList)] [] [])])] }
      "deep".toList).2.2 (by decide) (by decide)⟩

/-! ## The arguments of a python client method -/

theorem pythonClientMethod.setup_eq (pcm : pythonClientMethod) :
    pcm.setup
      = (setupMethodName pcm.base.DisplayName pcm.base.Verb pcm.base.Resource).map
          (fun name =>
            { base := { pcm.setupParams.base with MethodName := name },
              PRArgs := pcm.setupParams.PRArgs }) := by
  unfold pythonClientMethod.setup pythonClientMethod.setupParams
  cases setupMethodName pcm.base.DisplayName pcm.base.Verb pcm.base.Resource <;> rfl

/-- C13: for every python client method, `setup` sets `Params` to the
`, `-joined list of `self`, then `data` if and only if the verb is `PUT`,
`POST` or `PATCH`, then the path parameters in the order of
`getResourceParams`, then `headers=None, query_params=None`; and `PRArgs` is
`, data` for these three verbs and empty otherwise.  This is the state when
the method name is about to be derived, and the state `setup` returns. -/
theorem pythonClientMethod_setup_params (pcm : pythonClientMethod) :
    (pcm.setupParams.base.Params
        = stringsJoin (["self".toList]
            ++ (if pcm.base.Verb = "PUT".toList ∨ pcm.base.Verb = "POST".toList
                  ∨ pcm.base.Verb = "PATCH".toList then ["data".toList] else [])
            ++ getResourceParams pcm.base.Resource
            ++ ["headers=None, query_params=None".toList]) [',', ' ']
      ∧ pcm.setupParams.PRArgs
        = (if pcm.base.Verb = "PUT".toList ∨ pcm.base.Verb = "POST".toList
              ∨ pcm.base.Verb = "PATCH".toList then ", data".toList else []))
    ∧ (∀ res, pcm.setup = some res →
        res.base.Params = pcm.setupParams.base.Params
        ∧ res.PRArgs = pcm.setupParams.PRArgs) := by
  constructor
  · unfold pythonClientMethod.setupParams
    by_cases h : pcm.base.Verb = "PUT".toList ∨ pcm.base.Verb = "POST".toList
        ∨ pcm.base.Verb = "PATCH".toList
    · have hb : (pcm.base.Verb == "PUT".toList || pcm.base.Verb == "POST".toList
          || pcm.base.Verb == "PATCH".toList) = true := by
        simpa [Bool.or_assoc] using h
      simp only [hb, if_true, if_pos h]
      simp
    · have hb : (pcm.base.Verb == "PUT".toList || pcm.base.Verb == "POST".toList
          || pcm.base.Verb == "PATCH".toList) = false := by
        simpa [Bool.or_assoc, not_or] using h
      simp only [hb, if_neg h]
      simp
  · intro res hres
    rw [pythonClientMethod.setup_eq] at hres
    cases hname : setupMethodName pcm.base.DisplayName pcm.base.Verb pcm.base.Resource with
    | none => simp [hname] at hres
    | some name =>
      simp only [hname, Option.map_some', Option.some.injEq] at hres
      subst hres
      exact ⟨rfl, rfl⟩

/-- Witness of C13: `POST` on `/users/{userId}`. -/
theorem pythonClientMethod_setup_params_witness :
    ∃ res, pythonClientMethod.setup
        { base := { Verb := "POST".toList,
                    Resource := some (Resource.root "/users/{userId}".toList) } } = some res
      ∧ res.base.Params = "self, data, userId, headers=None, query_params=None".toList
      ∧ res.PRArgs = ", data".toList := by
  obtain ⟨res, hres⟩ : ∃ res, pythonClientMethod.setup
      { base := { Verb := "POST".toList,
                  Resource := some (Resource.root "/users/{userId}".toList) } } = some res :=
    ⟨_, rfl⟩
  have h := (pythonClientMethod_setup_params
    { base := { Verb := "POST".toList,
                Resource := some (Resource.root "/users/{userId}".toList) } }).2 res hres
  exact ⟨res, hres, h.1.trans (by decide), h.2.trans (by decide)⟩

/-! ## Files that are already there -/

/-- C14: for every file name that is in the file system and every call of
`generateFile` with `override = false`, the call returns no error, the files
and their bytes are as before, and the only thing done is one log line: no
template is loaded, parsed or executed. -/
theorem generateFile_existing_kept {D : Type} (env : Env D) (w : World) (data : D)
    (tmplFile tmplName filename : Str) (hexists : w.files.get filename ≠ none) :
    (generateFile env w data tmplFile tmplName filename false).2 = none
    ∧ (generateFile env w data tmplFile tmplName filename false).1.files = w.files
    ∧ ∃ msg, (generateFile env w data tmplFile tmplName filename false).1.events
        = w.events ++ [Event.log msg] := by
  have hstat : osStat env w filename ≠ StatResult.notExist := by
    unfold osStat
    by_cases hd : env.statDenied filename = true
    · simp [hd]
    · cases hget : w.files.get filename with
      | none => exact absurd hget hexists
      | some bytes => simp [hd]
  have hfile : isFileExist env w filename = true := by
    simp [isFileExist, hstat]
  unfold generateFile
  simp [hfile]

/-- Witness of C14: `main.py` is there with the bytes `old`. -/
theorem generateFile_existing_kept_witness :
    (generateFile
        { statDenied := fun _ => false, asset := fun _ => Except.ok "T".toList,
          parseError := fun _ _ => none, createError := fun _ _ => none,
          execute := fun t _ _ => (t, none), goFmt := fun b => Except.ok b }
        { files := [("main.py".toList, "old".toList)] } ()
        "./main.tmpl".toList "main".toList "main.py".toList false).2 = none
    ∧ (generateFile
        { statDenied := fun _ => false, asset := fun _ => Except.ok "T".toList,
          parseError := fun _ _ => none, createError := fun _ _ => none,
          execute := fun t _ _ => (t, none), goFmt := fun b => Except.ok b }
        { files := [("main.py".toList, "old".toList)] } ()
        "./main.tmpl".toList "main".toList "main.py".toList false).1.files
      = [("main.py".toList, "old".toList)] :=
  ⟨(generateFile_existing_kept
      { statDenied := fun _ => false, asset := fun _ => Except.ok "T".toList,
        parseError := fun _ _ => none, createError := fun _ _ => none,
        execute := fun t _ _ => (t, none), goFmt := fun b => Except.ok b }
      { files := [("main.py".toList, "old".toList)] } ()
      "./main.tmpl".toList "main".toList "main.py".toList (by decide)).1,
   (generateFile_existing_kept
      { statDenied := fun _ => false, asset := fun _ => Except.ok "T".toList,
        parseError := fun _ _ => none, createError := fun _ _ => none,
        execute := fun t _ _ => (t, none), goFmt := fun b => Except.ok b }
      { files := [("main.py".toList, "old".toList)] } ()
      "./main.tmpl".toList "main".toList "main.py".toList (by decide)).2.1⟩

/-! ## Security middlewares of a python server method -/

theorem snakeCaseStep_of_normalized (URI : Str) (hasParent : Bool) (completeURI : Str)
    (next : Str → Option Str) (h : URI = [] ∨ normalizeURI URI ≠ []) :
    ∃ acc, snakeCaseStep URI hasParent completeURI next = next acc := by
  unfold snakeCaseStep
  by_cases hlen : URI.length > 0
  · have hne : URI ≠ [] := List.length_pos.mp hlen
    have hnorm : normalizeURI URI ≠ [] := h.resolve_left hne
    rw [if_pos hlen]
    cases hu : normalizeURI URI with
    | nil => exact absurd hu hnorm
    | cons u rest => exact ⟨_, rfl⟩
  · rw [if_neg hlen]
    exact ⟨_, rfl⟩

theorem snakeCaseStep_of_empty_normalized (URI : Str) (hasParent : Bool) (completeURI : Str)
    (next : Str → Option Str) (hne : URI ≠ []) (h : normalizeURI URI = []) :
    snakeCaseStep URI hasParent completeURI next = none := by
  have hlen : URI.length > 0 := List.length_pos.mpr hne
  unfold snakeCaseStep
  rw [if_pos hlen]
  simp only [h]

theorem snakeCaseRec_returns (r : Resource)
    (h : ∀ u ∈ r.path, u = [] ∨ normalizeURI u ≠ []) :
    ∀ completeURI, ∃ name, snakeCaseRec r completeURI = some name := by
  induction r with
  | root u =>
    intro completeURI
    obtain ⟨acc, hacc⟩ := snakeCaseStep_of_normalized u false completeURI some
      (h u (by simp [Resource.path]))
    exact ⟨acc, by rw [snakeCaseRec, hacc]⟩
  | child u p ih =>
    intro completeURI
    obtain ⟨acc, hacc⟩ := snakeCaseStep_of_normalized u true completeURI (snakeCaseRec p)
      (h u (by simp [Resource.path]))
    obtain ⟨name, hname⟩ := ih (fun v hv => h v (by simp [Resource.path, hv])) acc
    exact ⟨name, by rw [snakeCaseRec, hacc, hname]⟩

theorem setupMethodName_returns (DisplayName Verb : Str) (r : Option Resource)
    (h : DisplayName ≠ []
      ∨ ∀ res, r = some res → ∀ u ∈ res.path, u = [] ∨ normalizeURI u ≠ []) :
    ∃ name, setupMethodName DisplayName Verb r = some name := by
  by_cases hd : DisplayName = []
  · have hpath := h.resolve_left (fun hne => hne hd)
    subst hd
    cases r with
    | none => simp [setupMethodName, snakeCaseResourceURI, _snakeCaseResourceURI]
    | some res =>
      obtain ⟨name, hname⟩ := snakeCaseRec_returns res (hpath res rfl) []
      simp [setupMethodName, snakeCaseResourceURI, _snakeCaseResourceURI, hname]
  · exact ⟨_, setupMethodName_of_displayName _ _ _ hd⟩

theorem setupMiddlewares_skips {M : Type} (validateSecurityScheme : Str → Bool)
    (newPythonOauth2Middleware : DefinitionChoice → Except Str M)
    (secured : List DefinitionChoice) :
    ∀ arr : List M,
      (∀ v ∈ secured, validateSecurityScheme v.Name = true →
        ∃ m, newPythonOauth2Middleware v = Except.ok m) →
      ∃ ms, setupMiddlewares validateSecurityScheme newPythonOauth2Middleware secured arr
          = (arr ++ ms, none)
        ∧ List.Forall₂ (fun v m => newPythonOauth2Middleware v = Except.ok m)
            (secured.filter (fun v => validateSecurityScheme v.Name)) ms := by
  induction secured with
  | nil =>
    intro arr _
    exact ⟨[], by simp [setupMiddlewares], by simp⟩
  | cons v vs ih =>
    intro arr hok
    have hrest : ∀ w ∈ vs, validateSecurityScheme w.Name = true →
        ∃ m, newPythonOauth2Middleware w = Except.ok m :=
      fun w hw => hok w (List.mem_cons_of_mem _ hw)
    by_cases hv : validateSecurityScheme v.Name = true
    · obtain ⟨m, hm⟩ := hok v (List.mem_cons_self _ _) hv
      obtain ⟨ms, hms, hall⟩ := ih (arr ++ [m]) hrest
      refine ⟨m :: ms, ?_, ?_⟩
      · simp [setupMiddlewares, hv, hm, hms]
      · simp only [List.filter_cons, hv, if_true]
        exact List.Forall₂.cons hm hall
    · obtain ⟨ms, hms, hall⟩ := ih arr hrest
      refine ⟨ms, ?_, ?_⟩
      · simp [setupMiddlewares, hv, hms]
      · simpa [List.filter_cons, hv] using hall

/-- C12, the code on a method without display name on the resource `/`,
secured by the declared scheme `oauth2` whose middleware can be built: `setup`
does not return at all, the derivation of the method name fails on
`uri[:1]` before the security schemes are looked at, and no middleware is
appended. -/
theorem setup_root_slash_does_not_return :
    (pythonServerMethod.setup (fun _ => true) (fun v => Except.ok v.Name)
        { base := { Verb := "GET".toList, SecuredBy := [{ Name := "oauth2".toList }] } }
        (some (Resource.root "/".toList))).isSome = false := by
  decide

/-- The security loop of `setup` taken by itself: once the method name is
derived (the display name is non-empty, or every non-empty URI on the parent
chain of the resource keeps a character when `/`, `{`, `}` and spaces are
removed) and middleware construction succeeds on every entry of `SecuredBy`
whose scheme name validates, `setup` returns no error and appends to
`MiddlewaresArr` exactly one middleware per validating entry, in `SecuredBy`
order, and nothing for the other entries. -/
theorem setup_skips_unresolved_schemes {M : Type} (validateSecurityScheme : Str → Bool)
    (newPythonOauth2Middleware : DefinitionChoice → Except Str M)
    (pm : pythonServerMethod M) (r : Option Resource)
    (hname : pm.base.DisplayName ≠ []
      ∨ ∀ res, r = some res → ∀ u ∈ res.path, u = [] ∨ normalizeURI u ≠ [])
    (hok : ∀ v ∈ pm.base.SecuredBy, validateSecurityScheme v.Name = true →
      ∃ m, newPythonOauth2Middleware v = Except.ok m) :
    ∃ res ms,
      pythonServerMethod.setup validateSecurityScheme newPythonOauth2Middleware pm r
        = some (res, none)
      ∧ res.MiddlewaresArr = pm.MiddlewaresArr ++ ms
      ∧ List.Forall₂ (fun v m => newPythonOauth2Middleware v = Except.ok m)
          (pm.base.SecuredBy.filter (fun v => validateSecurityScheme v.Name)) ms := by
  obtain ⟨name, hn⟩ := setupMethodName_returns pm.base.DisplayName pm.base.Verb r hname
  obtain ⟨ms, hms, hall⟩ := setupMiddlewares_skips validateSecurityScheme
    newPythonOauth2Middleware pm.base.SecuredBy pm.MiddlewaresArr hok
  have hsetup :
      pythonServerMethod.setup validateSecurityScheme newPythonOauth2Middleware pm r
        = some ({ base := { pm.base with
                    MethodName := name,
                    Params := stringsJoin (getResourceParams r) [',', ' '],
                    Endpoint := stringsReplace (stringsReplace pm.base.Endpoint '{' ['<'])
                      '}' ['>'] },
                  MiddlewaresArr := pm.MiddlewaresArr ++ ms }, none) := by
    simp only [pythonServerMethod.setup, hn, hms]
  exact ⟨_, ms, hsetup, rfl, hall⟩

/-- Example of the security loop on the resource `/widgets`:
`SecuredBy = [oauth2, ghost]` with only `oauth2` declared yields exactly one
middleware, the one of `oauth2`, and no error. -/
theorem setup_skips_unresolved_schemes_witness :
    ∃ res ms,
      pythonServerMethod.setup (fun name => name == "oauth2".toList)
          (fun v => Except.ok v.Name)
          { base := { Verb := "GET".toList,
                      SecuredBy := [{ Name := "oauth2".toList }, { Name := "ghost".toList }] } }
          (some (Resource.root "/widgets".toList))
        = some (res, none)
      ∧ res.MiddlewaresArr = [] ++ ms
      ∧ List.Forall₂ (fun (v : DefinitionChoice) (m : Str) =>
            (Except.ok v.Name : Except Str Str) = Except.ok m)
          [{ Name := "oauth2".toList }] ms :=
  setup_skips_unresolved_schemes (fun name => name == "oauth2".toList)
    (fun v => Except.ok v.Name)
    { base := { Verb := "GET".toList,
                SecuredBy := [{ Name := "oauth2".toList }, { Name := "ghost".toList }] } }
    (some (Resource.root "/widgets".toList))
    (Or.inr (by
      intro res hres
      cases hres
      decide))
    (by
      intro v _ _
      exact ⟨v.Name, rfl⟩)

/-! ## Loading the imported libraries -/

theorem GoMap.get_nil {V : Type} (key : Str) : GoMap.get ([] : GoMap V) key = none := rfl

theorem GoMap.get_cons {V : Type} (k : Str) (v : V) (m : GoMap V) (key : Str) :
    GoMap.get ((k, v) :: m) key = if key = k then some v else GoMap.get m key := by
  unfold GoMap.get
  by_cases h : key = k
  · subst h
    simp [List.lookup]
  · have hb : (key == k) = false := by simpa using h
    simp [List.lookup, hb, h]

theorem GoMap.mem_of_get {V : Type} (m : GoMap V) (key : Str) (v : V)
    (h : m.get key = some v) : (key, v) ∈ m := by
  induction m with
  | nil => simp [GoMap.get_nil] at h
  | cons e rest ih =>
    obtain ⟨k, w⟩ := e
    rw [GoMap.get_cons] at h
    by_cases hk : key = k
    · subst hk
      simp only [if_true, Option.some.injEq] at h
      subst h
      exact List.mem_cons_self _ _
    · simp only [hk, if_false] at h
      exact List.mem_cons_of_mem _ (ih h)

theorem GoMap.get_of_not_mem_keys {V : Type} (m : GoMap V) (key : Str)
    (h : key ∉ m.map Prod.fst) : m.get key = none := by
  induction m with
  | nil => rfl
  | cons e rest ih =>
    obtain ⟨k, w⟩ := e
    simp only [List.map_cons, List.mem_cons, not_or] at h
    rw [GoMap.get_cons, if_neg h.1]
    exact ih h.2

theorem GoMap.get_of_mem_keys {V : Type} (m : GoMap V) (key : Str)
    (h : key ∈ m.map Prod.fst) : ∃ v, m.get key = some v := by
  induction m with
  | nil => simp at h
  | cons e rest ih =>
    obtain ⟨k, w⟩ := e
    rw [GoMap.get_cons]
    by_cases hk : key = k
    · exact ⟨w, by simp [hk]⟩
    · simp only [List.map_cons, List.mem_cons, hk, false_or] at h
      simpa [hk] using ih h

theorem GoMap.get_replace_of_mem {V : Type} (m : GoMap V) (key : Str) (v : V)
    (h : key ∈ m.map Prod.fst) :
    GoMap.get (m.map (fun e => if e.1 == key then (key, v) else e)) key = some v := by
  induction m with
  | nil => simp at h
  | cons e rest ih =>
    obtain ⟨k, w⟩ := e
    by_cases hk : k = key
    · subst hk
      simp [GoMap.get_cons]
    · have hk2 : ¬ key = k := fun e => hk e.symm
      have hb : (k == key) = false := by simpa using hk
      have hrest : key ∈ rest.map Prod.fst := by
        simp only [List.map_cons, List.mem_cons, hk2, false_or] at h
        exact h
      have hmap : ((k, w) :: rest).map (fun e => if e.1 == key then (key, v) else e)
          = (k, w) :: rest.map (fun e => if e.1 == key then (key, v) else e) := by
        simp only [List.map_cons, hb, Bool.false_eq_true, if_false]
      rw [hmap, GoMap.get_cons, if_neg hk2]
      exact ih hrest

theorem GoMap.get_replace_of_ne {V : Type} (m : GoMap V) (key other : Str) (v : V)
    (hne : other ≠ key) :
    GoMap.get (m.map (fun e => if e.1 == key then (key, v) else e)) other
      = GoMap.get m other := by
  induction m with
  | nil => rfl
  | cons e rest ih =>
    obtain ⟨k, w⟩ := e
    by_cases hk : k = key
    · subst hk
      have hmap : ((k, w) :: rest).map (fun e => if e.1 == k then (k, v) else e)
          = (k, v) :: rest.map (fun e => if e.1 == k then (k, v) else e) := by
        simp
      rw [hmap, GoMap.get_cons, GoMap.get_cons, if_neg hne, if_neg hne]
      exact ih
    · have hb : (k == key) = false := by simpa using hk
      have hmap : ((k, w) :: rest).map (fun e => if e.1 == key then (key, v) else e)
          = (k, w) :: rest.map (fun e => if e.1 == key then (key, v) else e) := by
        simp only [List.map_cons, hb, Bool.false_eq_true, if_false]
      rw [hmap, GoMap.get_cons, GoMap.get_cons, ih]

theorem GoMap.get_append_of_not_mem {V : Type} (m : GoMap V) (key : Str) (v : V)
    (h : key ∉ m.map Prod.fst) : GoMap.get (m ++ [(key, v)]) key = some v := by
  induction m with
  | nil => simp [GoMap.get_cons]
  | cons e rest ih =>
    obtain ⟨k, w⟩ := e
    simp only [List.map_cons, List.mem_cons, not_or] at h
    simp only [List.cons_append]
    rw [GoMap.get_cons, if_neg h.1]
    exact ih h.2

theorem GoMap.get_append_of_ne {V : Type} (m : GoMap V) (key other : Str) (v : V)
    (hne : other ≠ key) : GoMap.get (m ++ [(key, v)]) other = GoMap.get m other := by
  induction m with
  | nil => simp [GoMap.get_cons, hne, GoMap.get_nil]
  | cons e rest ih =>
    obtain ⟨k, w⟩ := e
    simp only [List.cons_append]
    rw [GoMap.get_cons, GoMap.get_cons, ih]

theorem GoMap.any_key_iff {V : Type} (m : GoMap V) (key : Str) :
    m.any (fun e => e.1 == key) = true ↔ key ∈ m.map Prod.fst := by
  induction m with
  | nil => simp
  | cons e rest ih =>
    obtain ⟨k, w⟩ := e
    simp only [List.any_cons, Bool.or_eq_true, beq_iff_eq, List.map_cons, List.mem_cons, ih]
    constructor
    · rintro (h | h)
      · exact Or.inl h.symm
      · exact Or.inr h
    · rintro (h | h)
      · exact Or.inl h.symm
      · exact Or.inr h

theorem GoMap.get_set_self {V : Type} (m : GoMap V) (key : Str) (v : V) :
    (m.set key v).get key = some v := by
  unfold GoMap.set
  by_cases hany : m.any (fun e => e.1 == key) = true
  · rw [if_pos hany]
    exact GoMap.get_replace_of_mem m key v ((GoMap.any_key_iff m key).mp hany)
  · rw [if_neg hany]
    exact GoMap.get_append_of_not_mem m key v
      (fun hm => hany ((GoMap.any_key_iff m key).mpr hm))

theorem GoMap.get_set_of_ne {V : Type} (m : GoMap V) (key other : Str) (v : V)
    (hne : other ≠ key) : (m.set key v).get other = m.get other := by
  unfold GoMap.set
  split
  · exact GoMap.get_replace_of_ne m key other v hne
  · exact GoMap.get_append_of_ne m key other v hne

theorem loadLibraries_error (ParseFile : Str → Library → Except Str Library)
    (ramlFileDir : Str) (uses : List (Str × Str)) :
    ∀ libs : GoMap Library,
      (∃ e ∈ uses, ∃ err,
        ParseFile (filepathJoin [ramlFileDir, e.2]) (Library.mk e.2 [] [] [])
          = Except.error err) →
      (loadLibraries ParseFile ramlFileDir uses libs).2 ≠ none := by
  induction uses with
  | nil =>
    intro libs h
    obtain ⟨e, he, _⟩ := h
    exact absurd he (List.not_mem_nil e)
  | cons e rest ih =>
    intro libs h
    obtain ⟨name, path⟩ := e
    cases hparse : ParseFile (filepathJoin [ramlFileDir, path]) (Library.mk path [] [] []) with
    | error err => simp [loadLibraries, hparse]
    | ok lib =>
      have hrest : ∃ e ∈ rest, ∃ err,
          ParseFile (filepathJoin [ramlFileDir, e.2]) (Library.mk e.2 [] [] [])
            = Except.error err := by
        obtain ⟨e, he, err, herr⟩ := h
        rcases List.mem_cons.mp he with heq | hmem
        · subst heq
          rw [hparse] at herr
          cases herr
        · exact ⟨e, hmem, err, herr⟩
      simpa [loadLibraries, hparse] using ih (libs.set name lib) hrest

theorem loadLibraries_ok (ParseFile : Str → Library → Except Str Library)
    (ramlFileDir : Str) (uses : List (Str × Str)) :
    ∀ (libs res : GoMap Library),
      loadLibraries ParseFile ramlFileDir uses libs = (res, none) →
      (uses.map Prod.fst).Nodup →
      (∀ a p, (a, p) ∈ uses →
        ∃ lib, ParseFile (filepathJoin [ramlFileDir, p]) (Library.mk p [] [] [])
            = Except.ok lib
          ∧ res.get a = some lib)
      ∧ (∀ a, a ∉ uses.map Prod.fst → res.get a = libs.get a) := by
  induction uses with
  | nil =>
    intro libs res h _
    simp only [loadLibraries, Prod.mk.injEq, and_true] at h
    subst h
    exact ⟨fun a p hm => absurd hm (List.not_mem_nil _), fun a _ => rfl⟩
  | cons e rest ih =>
    intro libs res h hnodup
    obtain ⟨name, path⟩ := e
    have hnd : name ∉ rest.map Prod.fst ∧ (rest.map Prod.fst).Nodup := by
      simpa using hnodup
    cases hparse : ParseFile (filepathJoin [ramlFileDir, path]) (Library.mk path [] [] []) with
    | error err => simp [loadLibraries, hparse] at h
    | ok lib =>
      have hrec : loadLibraries ParseFile ramlFileDir rest (libs.set name lib) = (res, none) := by
        simpa [loadLibraries, hparse] using h
      obtain ⟨hin, hout⟩ := ih (libs.set name lib) res hrec hnd.2
      constructor
      · intro a p hm
        rcases List.mem_cons.mp hm with heq | hmem
        · have ha : a = name := congrArg Prod.fst heq
          have hp : p = path := congrArg Prod.snd heq
          subst ha
          subst hp
          refine ⟨lib, hparse, ?_⟩
          rw [hout a hnd.1]
          exact GoMap.get_set_self libs a lib
        · exact hin a p hmem
      · intro a ha
        have ha2 : a ≠ name ∧ a ∉ rest.map Prod.fst := by
          simpa [not_or] using ha
        rw [hout a ha2.2]
        exact GoMap.get_set_of_ne libs name a lib ha2.1

/-- C16: `PostProcess` loads every imported library or fails.  If parsing the
file of some alias of `Uses` fails, `PostProcess` returns an error; and
whenever it returns no error, `Libraries` has exactly the keys of `Uses` and,
for every alias `a` with `Uses[a] = p`, `Libraries[a]` is the library that
the parser returned for the file `p` and the fresh library with
`Filename = p`; its `Filename` is `p` as long as the parser does not touch
that field.  `Uses` is a map (no key twice). -/
theorem PostProcess_loads_libraries (ParseFile : Str → Library → Except Str Library)
    (ramlFileDir : Str) (postProcessResources : APIDefinition → Option Str)
    (apiDef : APIDefinition) (filename : Str)
    (hmap : (apiDef.Uses.map Prod.fst).Nodup) :
    ((∃ e ∈ apiDef.Uses, ∃ err,
        ParseFile (filepathJoin [ramlFileDir, e.2]) (Library.mk e.2 [] [] [])
          = Except.error err) →
      (apiDef.PostProcess ParseFile ramlFileDir postProcessResources filename).2 ≠ none)
    ∧ ((apiDef.PostProcess ParseFile ramlFileDir postProcessResources filename).2 = none →
      (∀ a, ((apiDef.PostProcess ParseFile ramlFileDir postProcessResources
                filename).1.Libraries.get a).isSome = (apiDef.Uses.get a).isSome)
      ∧ (∀ a p, apiDef.Uses.get a = some p →
          ∃ lib,
            ParseFile (filepathJoin [ramlFileDir, p]) (Library.mk p [] [] [])
              = Except.ok lib
            ∧ (apiDef.PostProcess ParseFile ramlFileDir postProcessResources
                filename).1.Libraries.get a = some lib
            ∧ ((∀ path fresh loaded, ParseFile path fresh = Except.ok loaded →
                  loaded.Filename = fresh.Filename) →
                lib.Filename = p))) := by
  cases hload : loadLibraries ParseFile ramlFileDir apiDef.Uses [] with
  | mk libs err =>
    constructor
    · intro hfail
      have herr := loadLibraries_error ParseFile ramlFileDir apiDef.Uses [] hfail
      rw [hload] at herr
      cases err with
      | none => exact absurd rfl herr
      | some e => simp [APIDefinition.PostProcess, hload]
    · intro hnone
      cases err with
      | some e => simp [APIDefinition.PostProcess, hload] at hnone
      | none =>
        obtain ⟨hin, hout⟩ := loadLibraries_ok ParseFile ramlFileDir apiDef.Uses [] libs
          hload hmap
        have hlibs : (apiDef.PostProcess ParseFile ramlFileDir postProcessResources
            filename).1.Libraries = libs := by
          simp [APIDefinition.PostProcess, hload]
        rw [hlibs]
        constructor
        · intro a
          by_cases ha : a ∈ apiDef.Uses.map Prod.fst
          · obtain ⟨p, hp⟩ := GoMap.get_of_mem_keys apiDef.Uses a ha
            obtain ⟨lib, _, hlib⟩ := hin a p (GoMap.mem_of_get _ _ _ hp)
            rw [hlib, hp]
            rfl
          · rw [hout a ha, GoMap.get_of_not_mem_keys apiDef.Uses a ha]
            rfl
        · intro a p hp
          obtain ⟨lib, hparse, hlib⟩ := hin a p (GoMap.mem_of_get _ _ _ hp)
          exact ⟨lib, hparse, hlib, fun hkeep => hkeep _ _ _ hparse⟩

/-- Witness of C16: `Uses = {common: libs/common.raml}` with a parser that
fills in the imports of the library it is handed: the library registered
under `common` is the parsed one, with these imports and the file name
`libs/common.raml`. -/
theorem PostProcess_loads_libraries_witness :
    ∃ lib, (APIDefinition.PostProcess
          (fun _ fresh => Except.ok
            (Library.mk fresh.Filename [("base".toList, "libs/base.raml".toList)] [] []))
          "api".toList (fun _ => none)
          { Uses := [("common".toList, "libs/common.raml".toList)] }
          "api.raml".toList).1.Libraries.get "common".toList = some lib
      ∧ lib.Uses = [("base".toList, "libs/base.raml".toList)]
      ∧ lib.Filename = "libs/common.raml".toList := by
  obtain ⟨lib, hparse, hlib, hfile⟩ :=
    (PostProcess_loads_libraries
      (fun _ fresh => Except.ok
        (Library.mk fresh.Filename [("base".toList, "libs/base.raml".toList)] [] []))
      "api".toList (fun _ => none)
      { Uses := [("common".toList, "libs/common.raml".toList)] }
      "api.raml".toList (by decide)).2 rfl |>.2 "common".toList "libs/common.raml".toList
        (by decide)
  refine ⟨lib, hlib, ?_, ?_⟩
  · cases hparse
    rfl
  · exact hfile (by
      intro path fresh loaded h
      cases h
      rfl)

/-! ## Security schemes by name -/

theorem stringsSplit_of_not_mem (s : Str) (sep : Char) (h : sep ∉ s) :
    stringsSplit s sep = [s] := by
  induction s with
  | nil => rfl
  | cons c cs ih =>
    simp only [List.mem_cons, not_or] at h
    have hc : ¬ c = sep := fun e => h.1 e.symm
    rw [stringsSplit]
    simp [hc, ih h.2]

theorem mem_of_mem_stringsTrimSpace (s : Str) (c : Char) (h : c ∈ stringsTrimSpace s) :
    c ∈ s := by
  unfold stringsTrimSpace at h
  have h1 : c ∈ (s.dropWhile isGoSpace).reverse.dropWhile isGoSpace := List.mem_reverse.mp h
  have h2 : c ∈ (s.dropWhile isGoSpace).reverse :=
    (List.dropWhile_sublist _).subset h1
  have h3 : c ∈ s.dropWhile isGoSpace := List.mem_reverse.mp h2
  exact (List.dropWhile_sublist _).subset h3

/-- C17, counterexample: the name ` lib.s` (with a leading space) has the
form `alias.bare` with exactly one dot, its alias ` lib` is not a key of
`Libraries`, and yet `GetSecurityScheme` returns the scheme `s` of the
library `lib`: the name is trimmed before it is split. -/
theorem GetSecurityScheme_trims_qualified_name :
    APIDefinition.GetSecurityScheme
        { Libraries := [("lib".toList,
            Library.mk "lib.raml".toList [] [("s".toList, { Kind := "OAuth 2.0".toList })] [])] }
        " lib.s".toList
      = ({ Kind := "OAuth 2.0".toList }, true)
    ∧ (GoMap.get [("lib".toList,
            Library.mk "lib.raml".toList [] [("s".toList, { Kind := "OAuth 2.0".toList })] [])]
          " lib".toList).isNone = true := by
  decide

/-- C17, amended: for every name containing no `.`, `GetSecurityScheme`
returns `(s, true)` exactly when the name is a key of the document's
`SecuritySchemes` with value `s`, and the zero value with `false` otherwise;
for every name whose form without surrounding white space is `alias.bare`
with exactly one `.`, it returns `(s, true)` exactly when `alias` is a key of
`Libraries` and `bare` names the scheme `s` in that library, and the zero
value with `false` otherwise, never falling back to the document's own
schemes. -/
theorem GetSecurityScheme_spec (apiDef : APIDefinition) (name : Str) :
    ('.' ∉ name →
      (∀ s, apiDef.SecuritySchemes.get name = some s →
        apiDef.GetSecurityScheme name = (s, true))
      ∧ (apiDef.SecuritySchemes.get name = none →
        apiDef.GetSecurityScheme name = ({}, false)))
    ∧ (∀ libName bare, '.' ∉ libName → '.' ∉ bare →
        stringsTrimSpace name = libName ++ '.' :: bare →
        (∀ l s, apiDef.Libraries.get libName = some l → l.SecuritySchemes.get bare = some s →
          apiDef.GetSecurityScheme name = (s, true))
        ∧ (∀ l, apiDef.Libraries.get libName = some l → l.SecuritySchemes.get bare = none →
          apiDef.GetSecurityScheme name = ({}, false))
        ∧ (apiDef.Libraries.get libName = none →
          apiDef.GetSecurityScheme name = ({}, false))) := by
  constructor
  · intro hdot
    have hsplit : stringsSplit (stringsTrimSpace name) '.' = [stringsTrimSpace name] :=
      stringsSplit_of_not_mem _ _ (fun hm => hdot (mem_of_mem_stringsTrimSpace _ _ hm))
    constructor
    · intro s hs
      simp [APIDefinition.GetSecurityScheme, hsplit, lookupScheme, hs]
    · intro hs
      simp [APIDefinition.GetSecurityScheme, hsplit, lookupScheme, hs]
  · intro libName bare h1 h2 htrim
    have hsplit : stringsSplit (stringsTrimSpace name) '.' = [libName, bare] := by
      rw [htrim, stringsSplit_append_sep _ _ _ h1, stringsSplit_of_not_mem _ _ h2]
    refine ⟨?_, ?_, ?_⟩
    · intro l s hl hs
      simp [APIDefinition.GetSecurityScheme, hsplit, lookupScheme, hl, hs]
    · intro l hl hs
      simp [APIDefinition.GetSecurityScheme, hsplit, lookupScheme, hl, hs]
    · intro hl
      simp [APIDefinition.GetSecurityScheme, hsplit, hl]

/-- Witness of the amended C17: the document declares `oauth2`, the library
`lib` declares `s`; `oauth2` and `lib.s` are found, and `lib.oauth2` is not,
the document's own scheme is not used for it. -/
theorem GetSecurityScheme_spec_witness :
    APIDefinition.GetSecurityScheme
        { SecuritySchemes := [("oauth2".toList, { Kind := "OAuth 2.0".toList })],
          Libraries := [("lib".toList,
            Library.mk "lib.raml".toList [] [("s".toList, { Kind := "Basic".toList })] [])] }
        "oauth2".toList = ({ Kind := "OAuth 2.0".toList }, true)
    ∧ APIDefinition.GetSecurityScheme
        { SecuritySchemes := [("oauth2".toList, { Kind := "OAuth 2.0".toList })],
          Libraries := [("lib".toList,
            Library.mk "lib.raml".toList [] [("s".toList, { Kind := "Basic".toList })] [])] }
        "lib.oauth2".toList = ({}, false) :=
  ⟨((GetSecurityScheme_spec
      { SecuritySchemes := [("oauth2".toList, { Kind := "OAuth 2.0".toList })],
        Libraries := [("lib".toList,
          Library.mk "lib.raml".toList [] [("s".toList, { Kind := "Basic".toList })] [])] }
      "oauth2".toList).1 (by decide)).1 { Kind := "OAuth 2.0".toList } (by decide),
   ((GetSecurityScheme_spec
      { SecuritySchemes := [("oauth2".toList, { Kind := "OAuth 2.0".toList })],
        Libraries := [("lib".toList,
          Library.mk "lib.raml".toList [] [("s".toList, { Kind := "Basic".toList })] [])] }
      "lib.oauth2".toList).2 "lib".toList "oauth2".toList (by decide) (by decide)
        (by decide)).2.1
      (Library.mk "lib.raml".toList [] [("s".toList, { Kind := "Basic".toList })] [])
      rfl (by decide)⟩

/-! ## When the snake-case name cannot be derived -/

theorem normalizeURI_cons (c : Char) (cs : Str) :
    normalizeURI (c :: cs)
      = (if c = '/' ∨ c = '{' ∨ c = '}' ∨ c = ' ' then [] else [c]) ++ normalizeURI cs := by
  have happ : normalizeURI (c :: cs) = normalizeURI [c] ++ normalizeURI cs :=
    normalizeURI_append [c] cs
  rw [happ]
  congr 1
  by_cases h1 : c = '/'
  · subst h1
    decide
  by_cases h2 : c = '{'
  · subst h2
    decide
  by_cases h3 : c = '}'
  · subst h3
    decide
  by_cases h4 : c = ' '
  · subst h4
    decide
  simp [normalizeURI, doNormalizeURI, stringsReplace_cons, stringsReplace_nil, h1, h2, h3, h4]

theorem normalizeURI_eq_nil_iff (u : Str) :
    normalizeURI u = [] ↔ ∀ c ∈ u, c = '/' ∨ c = '{' ∨ c = '}' ∨ c = ' ' := by
  induction u with
  | nil => simp [normalizeURI, doNormalizeURI, stringsReplace_nil]
  | cons c cs ih =>
    rw [normalizeURI_cons]
    by_cases hc : c = '/' ∨ c = '{' ∨ c = '}' ∨ c = ' '
    · simp only [hc, if_true, List.nil_append, ih, List.mem_cons, forall_eq_or_imp, true_and]
    · simp only [hc, if_false, List.mem_cons, forall_eq_or_imp, false_and, iff_false]
      simp

theorem snakeCaseRec_eq_none_iff (r : Resource) :
    ∀ completeURI, snakeCaseRec r completeURI = none
      ↔ ∃ u ∈ r.path, u ≠ [] ∧ normalizeURI u = [] := by
  induction r with
  | root u =>
    intro completeURI
    rw [snakeCaseRec]
    by_cases hbad : u ≠ [] ∧ normalizeURI u = []
    · rw [snakeCaseStep_of_empty_normalized u false completeURI some hbad.1 hbad.2]
      simp only [true_iff]
      exact ⟨u, by simp [Resource.path], hbad⟩
    · have hgood : u = [] ∨ normalizeURI u ≠ [] := by
        by_cases hu : u = []
        · exact Or.inl hu
        · exact Or.inr (fun hn => hbad ⟨hu, hn⟩)
      obtain ⟨acc, hacc⟩ := snakeCaseStep_of_normalized u false completeURI some hgood
      rw [hacc]
      constructor
      · intro h
        cases h
      · rintro ⟨v, hv, hvbad⟩
        have hvu : v = u := by simpa [Resource.path] using hv
        subst hvu
        exact absurd hvbad hbad
  | child u p ih =>
    intro completeURI
    rw [snakeCaseRec]
    by_cases hbad : u ≠ [] ∧ normalizeURI u = []
    · rw [snakeCaseStep_of_empty_normalized u true completeURI _ hbad.1 hbad.2]
      simp only [true_iff]
      exact ⟨u, by simp [Resource.path], hbad⟩
    · have hgood : u = [] ∨ normalizeURI u ≠ [] := by
        by_cases hu : u = []
        · exact Or.inl hu
        · exact Or.inr (fun hn => hbad ⟨hu, hn⟩)
      obtain ⟨acc, hacc⟩ := snakeCaseStep_of_normalized u true completeURI (snakeCaseRec p) hgood
      rw [hacc, ih acc]
      constructor
      · rintro ⟨v, hv, hvbad⟩
        exact ⟨v, by simp [Resource.path, hv], hvbad⟩
      · rintro ⟨v, hv, hvbad⟩
        have hv2 : v ∈ p.path ∨ v = u := by simpa [Resource.path] using hv
        rcases hv2 with hp | hvu
        · exact ⟨v, hp, hvbad⟩
        · subst hvu
          exact absurd hvbad hbad

/-- C22: `snakeCaseResourceURI` fails (in `uri[:1]` on the empty normalized
segment) if and only if some resource on the parent chain of the given
resource has a non-empty URI that consists only of the characters `/`, `{`,
`}` and space; for every other parent chain, and for the nil resource, it
returns a string. -/
theorem snakeCaseResourceURI_fails_iff (r : Resource) :
    (snakeCaseResourceURI (some r) = none
      ↔ ∃ u ∈ r.path, u ≠ [] ∧ ∀ c ∈ u, c = '/' ∨ c = '{' ∨ c = '}' ∨ c = ' ')
    ∧ ((¬ ∃ u ∈ r.path, u ≠ [] ∧ ∀ c ∈ u, c = '/' ∨ c = '{' ∨ c = '}' ∨ c = ' ') →
        ∃ name, snakeCaseResourceURI (some r) = some name)
    ∧ snakeCaseResourceURI none = some [] := by
  have hiff : snakeCaseResourceURI (some r) = none
      ↔ ∃ u ∈ r.path, u ≠ [] ∧ ∀ c ∈ u, c = '/' ∨ c = '{' ∨ c = '}' ∨ c = ' ' := by
    have h := snakeCaseRec_eq_none_iff r []
    simp only [normalizeURI_eq_nil_iff] at h
    simpa [snakeCaseResourceURI, _snakeCaseResourceURI] using h
  refine ⟨hiff, ?_, rfl⟩
  intro hgood
  cases hres : snakeCaseResourceURI (some r) with
  | none => exact absurd (hiff.mp hres) hgood
  | some name => exact ⟨name, rfl⟩

/-- Witness of C22: the chains `/` and `/users` with child `/{}` fail, the
chain `/users` with child `/{userId}` gives `users_byUserId`. -/
theorem snakeCaseResourceURI_fails_iff_witness :
    snakeCaseResourceURI (some (Resource.root "/".toList)) = none
    ∧ snakeCaseResourceURI
        (some (Resource.child "/\x7b\x7d".toList (Resource.root "/users".toList))) = none
    ∧ ∃ name, snakeCaseResourceURI
        (some (Resource.child "/{userId}".toList (Resource.root "/users".toList)))
          = some name :=
  ⟨(snakeCaseResourceURI_fails_iff (Resource.root "/".toList)).1.mpr
      ⟨"/".toList, by decide, by decide, by decide⟩,
   (snakeCaseResourceURI_fails_iff
      (Resource.child "/\x7b\x7d".toList (Resource.root "/users".toList))).1.mpr
      ⟨"/\x7b\x7d".toList, by decide, by decide, by decide⟩,
   (snakeCaseResourceURI_fails_iff
      (Resource.child "/{userId}".toList (Resource.root "/users".toList))).2.1
      (by decide)⟩

/-! ## The route expression of a python server method -/

theorem endpoint_rewrite_eq_map (endpoint : Str) :
    stringsReplace (stringsReplace endpoint '{' ['<']) '}' ['>']
      = endpoint.map (fun c => if c = '{' then '<' else if c = '}' then '>' else c) := by
  rw [stringsReplace_char_eq_map, stringsReplace_char_eq_map, List.map_map]
  apply List.map_congr_left
  intro c _
  by_cases h1 : c = '{'
  · subst h1
    decide
  · simp [h1]

theorem endpoint_rewrite_no_brace (endpoint : Str) :
    '{' ∉ stringsReplace (stringsReplace endpoint '{' ['<']) '}' ['>']
    ∧ '}' ∉ stringsReplace (stringsReplace endpoint '{' ['<']) '}' ['>'] := by
  rw [endpoint_rewrite_eq_map]
  constructor
  · intro hm
    obtain ⟨c, _, hc⟩ := List.mem_map.mp hm
    by_cases h1 : c = '{'
    · simp [h1] at hc
    · by_cases h2 : c = '}'
      · simp [h2] at hc
      · simp only [h1, h2, if_false] at hc
  · intro hm
    obtain ⟨c, _, hc⟩ := List.mem_map.mp hm
    by_cases h1 : c = '{'
    · simp [h1] at hc
    · by_cases h2 : c = '}'
      · simp [h2] at hc
      · simp only [h1, h2, if_false] at hc

/-- C21, the code on a method without display name and with the endpoint
`/{id}` on the resource `/{id}` below the root resource `/`: `setup` fails
on `uri[:1]` while it derives the method name, before the endpoint is
rewritten, and does not return. -/
theorem setup_endpoint_not_reached :
    (pythonServerMethod.setup (fun _ => false) (fun _ => Except.ok ())
        { base := { Verb := "GET".toList, Endpoint := "/{id}".toList } }
        (some (Resource.child "/{id}".toList (Resource.root "/".toList)))).isSome = false := by
  decide

/-- The rewrite of the endpoint taken by itself: whenever `setup` returns,
with or without an error, the `Endpoint` of the method is the original
`Endpoint` with every `{` replaced by `<`, every `}` replaced by `>` and all
other characters unchanged, and it contains neither `{` nor `}`; and the
call returns once the method name is derived. -/
theorem setup_endpoint {M : Type} (validateSecurityScheme : Str → Bool)
    (newPythonOauth2Middleware : DefinitionChoice → Except Str M)
    (pm : pythonServerMethod M) (r : Option Resource) :
    (∀ res err,
        pythonServerMethod.setup validateSecurityScheme newPythonOauth2Middleware pm r
          = some (res, err) →
        res.base.Endpoint
          = pm.base.Endpoint.map
              (fun c => if c = '{' then '<' else if c = '}' then '>' else c)
        ∧ '{' ∉ res.base.Endpoint ∧ '}' ∉ res.base.Endpoint)
    ∧ ((pm.base.DisplayName ≠ []
        ∨ ∀ x, r = some x → ∀ u ∈ x.path, u = [] ∨ normalizeURI u ≠ []) →
      ∃ res err,
        pythonServerMethod.setup validateSecurityScheme newPythonOauth2Middleware pm r
          = some (res, err)) := by
  constructor
  · intro res err h
    cases hn : setupMethodName pm.base.DisplayName pm.base.Verb r with
    | none => simp [pythonServerMethod.setup, hn] at h
    | some name =>
      simp only [pythonServerMethod.setup, hn, Option.some.injEq, Prod.mk.injEq] at h
      obtain ⟨hres, _⟩ := h
      subst hres
      exact ⟨endpoint_rewrite_eq_map _, endpoint_rewrite_no_brace _⟩
  · intro hname
    obtain ⟨name, hn⟩ := setupMethodName_returns pm.base.DisplayName pm.base.Verb r hname
    simp [pythonServerMethod.setup, hn]

/-- Example of the rewrite: the endpoint `/users/{userId}` becomes
`/users/<userId>`. -/
theorem setup_endpoint_witness :
    ∃ res err,
      pythonServerMethod.setup (fun _ => false) (fun _ => Except.ok ())
          { base := { Verb := "GET".toList, Endpoint := "/users/{userId}".toList } }
          (some (Resource.child "/{userId}".toList (Resource.root "/users".toList)))
        = some (res, err)
      ∧ res.base.Endpoint = "/users/<userId>".toList := by
  obtain ⟨res, err, h⟩ := (@setup_endpoint Unit (fun _ => false) (fun _ => Except.ok ())
      { base := { Verb := "GET".toList, Endpoint := "/users/{userId}".toList } }
      (some (Resource.child "/{userId}".toList (Resource.root "/users".toList)))).2
      (Or.inr (by
        intro x hx
        cases hx
        decide))
  have hend := ((@setup_endpoint Unit (fun _ => false) (fun _ => Except.ok ())
      { base := { Verb := "GET".toList, Endpoint := "/users/{userId}".toList } }
      (some (Resource.child "/{userId}".toList (Resource.root "/users".toList)))).1
      res err h).1
  exact ⟨res, err, h, hend.trans (by decide)⟩

/-! ## White space around the name of a security scheme -/

theorem dropWhile_cons_of_fixed {α : Type} (p : α → Bool) (h : α) (l : List α)
    (hfix : (h :: l).dropWhile p = h :: l) : p h = false := by
  cases hp : p h with
  | false => rfl
  | true =>
    have hd : (h :: l).dropWhile p = l.dropWhile p := by
      simp [List.dropWhile_cons, hp]
    have hlen : (l.dropWhile p).length ≤ l.length := (List.dropWhile_suffix p).length_le
    rw [← hd, hfix] at hlen
    simp at hlen

theorem stringsTrimSpace_eq (s : Str) :
    stringsTrimSpace s = (s.dropWhile isGoSpace).rdropWhile isGoSpace := rfl

theorem stringsTrimSpace_idempotent (s : Str) :
    stringsTrimSpace (stringsTrimSpace s) = stringsTrimSpace s := by
  have hfix : (s.dropWhile isGoSpace).dropWhile isGoSpace = s.dropWhile isGoSpace :=
    List.dropWhile_idempotent isGoSpace s
  have hpre : stringsTrimSpace s <+: s.dropWhile isGoSpace := by
    rw [stringsTrimSpace_eq]
    exact List.rdropWhile_prefix isGoSpace _
  have hdrop : (stringsTrimSpace s).dropWhile isGoSpace = stringsTrimSpace s := by
    cases hx : stringsTrimSpace s with
    | nil => rfl
    | cons c cs =>
      rw [hx] at hpre
      obtain ⟨rest, hrest⟩ := hpre
      rw [← hrest] at hfix
      have hc : isGoSpace c = false := dropWhile_cons_of_fixed isGoSpace c (cs ++ rest) hfix
      simp [List.dropWhile_cons, hc]
  rw [stringsTrimSpace_eq (stringsTrimSpace s), hdrop, stringsTrimSpace_eq]
  exact List.rdropWhile_idempotent isGoSpace _

theorem mem_dropWhile_of_not {α : Type} (p : α → Bool) (c : α) (l : List α)
    (hc : p c = false) (hm : c ∈ l) : c ∈ l.dropWhile p := by
  induction l with
  | nil => exact absurd hm (List.not_mem_nil c)
  | cons h t ih =>
    rw [List.dropWhile_cons]
    by_cases hp : p h = true
    · rw [if_pos hp]
      rcases List.mem_cons.mp hm with heq | ht
      · rw [heq, hp] at hc
        cases hc
      · exact ih ht
    · rw [if_neg hp]
      exact hm

theorem mem_stringsTrimSpace_of_not_space (s : Str) (c : Char) (hc : isGoSpace c = false)
    (hm : c ∈ s) : c ∈ stringsTrimSpace s := by
  unfold stringsTrimSpace
  apply List.mem_reverse.mpr
  apply mem_dropWhile_of_not isGoSpace c _ hc
  apply List.mem_reverse.mpr
  exact mem_dropWhile_of_not isGoSpace c _ hc hm

theorem stringsSplit_length_of_mem (s : Str) (sep : Char) (h : sep ∈ s) :
    2 ≤ (stringsSplit s sep).length := by
  induction s with
  | nil => exact absurd h (List.not_mem_nil sep)
  | cons c cs ih =>
    rw [stringsSplit]
    by_cases hc : c = sep
    · have hne := stringsSplit_ne_nil cs sep
      have hpos : 0 < (stringsSplit cs sep).length := List.length_pos.mpr hne
      simp only [hc, if_true, List.length_cons]
      omega
    · have hcs : sep ∈ cs := by
        rcases List.mem_cons.mp h with heq | hm
        · exact absurd heq.symm hc
        · exact hm
      have ih2 := ih hcs
      simp only [hc, if_false]
      cases hsp : stringsSplit cs sep with
      | nil => rw [hsp] at ih2; simp at ih2
      | cons piece pieces =>
        rw [hsp] at ih2
        simpa using ih2

/-- A name with a dot is looked up through the pieces of its trimmed form
only, so white space around it does not change the result. -/
theorem GetSecurityScheme_qualified_trimmed (apiDef : APIDefinition) (name : Str)
    (hdot : '.' ∈ name) :
    apiDef.GetSecurityScheme (stringsTrimSpace name) = apiDef.GetSecurityScheme name := by
  have hmem : '.' ∈ stringsTrimSpace name :=
    mem_stringsTrimSpace_of_not_space name '.' (by decide) hdot
  have hlen := stringsSplit_length_of_mem (stringsTrimSpace name) '.' hmem
  unfold APIDefinition.GetSecurityScheme
  rw [stringsTrimSpace_idempotent]
  cases hsp : stringsSplit (stringsTrimSpace name) '.' with
  | nil => rfl
  | cons a rest =>
    cases rest with
    | nil => rw [hsp] at hlen; simp at hlen
    | cons b rest2 => cases rest2 <;> rfl

/-- C23, the code on the unqualified name ` oauth2` (with a leading space)
in a document that declares `oauth2`: the scheme is not found, although it
is found under the trimmed name `oauth2`; the lookup of an unqualified name
uses the name as given, not its trimmed form. -/
theorem GetSecurityScheme_unqualified_not_trimmed :
    APIDefinition.GetSecurityScheme
        { SecuritySchemes := [("oauth2".toList, { Kind := "OAuth 2.0".toList })] }
        " oauth2".toList = ({}, false)
    ∧ stringsTrimSpace " oauth2".toList = "oauth2".toList
    ∧ APIDefinition.GetSecurityScheme
        { SecuritySchemes := [("oauth2".toList, { Kind := "OAuth 2.0".toList })] }
        (stringsTrimSpace " oauth2".toList) = ({ Kind := "OAuth 2.0".toList }, true) := by
  decide

end GoRaml
